import Mathlib

/-!
# A verification model of the logninja temporal log-analysis core

This file gives a shallow embedding, in Lean 4, of the core components of the
logninja repository (package `parser`, `scanner` and `models`):

* the timestamp pattern library and detection (`internal/parser/timestamp.go`:
  `compileDefaultPatterns`, `DetectBestPattern`, `parseTimestampWithPattern`,
  `ParseTimestamp`, `FindLineWithTimestamp`),
* content-based log classification (`scanner.isLogFileByContent`),
* the bounds extractor (`BoundsExtractor.ExtractBounds`, `splitLinesReverse`,
  `FindGlobalTimeBounds`),
* time ranges and histogram bins (`models.NewTimeRange`,
  `HistogramBuilder.createTimeBins`),
* the memory-mapped binary search engine (`MmapFileSearcher.findLineStart`,
  `findLineEnd`, `extractLineAt`, `parseTimestampAt`, `findNextValidTimestamp`,
  `binarySearchTime`, `BinarySearchTimeRange`) and the linear fallback
  (`HistogramBuilder.countBytesInTimeRangeLinear`).

Modelling conventions:

* A file's content is a `List Char` of its bytes (all content considered is
  ASCII).  `time.Time` values are modelled as `Int` (nanoseconds since the
  epoch); `t1.Before(t2)` is `t1 < t2`, `t1.After(t2)` is `t1 > t2`,
  `time.Unix(sec, nsec)` is `sec * 10^9 + nsec`.
* Go's `bufio.Scanner` line splitting (split at `'\n'`, drop a final `'\r'`
  of each line, no empty final token) is modelled by `goLines`.
* The eleven base regular expressions of `compileDefaultPatterns` are
  modelled by executable matchers.  Each regex is a concatenation of
  fixed-count character classes, one-or-more repetitions and literals in
  which every repetition is followed by a character that cannot extend it,
  so the backtracking semantics of Go's `regexp` package coincides with
  deterministic greedy consumption; trailing optional parts such as
  `(?:\.\d+)?` and `Z?` impose no constraint on a match's existence and are
  dropped from the Boolean matchers.
* The calendar branches of `parseTimestampWithPattern` call the Go standard
  library's `time.Parse` (and `time.Now` for syslog), which is not source
  code of this repository; they are abstracted by a parameter
  `calParse : Nat → List Char → Option Int` giving, for a non-"unix" pattern
  index and a line that the pattern matches, the result of extracting the
  leftmost match and running the layout-parsing code on it.  The "unix"
  (audit) branch, which is pure integer arithmetic in the source, is
  modelled concretely.
* Go iterates over the `patternMatches` map of `DetectBestPattern` in an
  unspecified order.  The selection loop is therefore parameterised by the
  iteration order, a list `order` required (`DetectOrder`) to be a
  permutation of the map's key set.
-/

namespace LogNinja

/-! ## Character classes and Go line splitting -/

/-- Go regexp `\d`. -/
def isDig (c : Char) : Bool := decide ('0' ≤ c) && decide (c ≤ '9')

/-- Go regexp `\w` (ASCII): `[0-9A-Za-z_]`. -/
def isWord (c : Char) : Bool :=
  isDig c || (decide ('a' ≤ c) && decide (c ≤ 'z')) ||
    (decide ('A' ≤ c) && decide (c ≤ 'Z')) || decide (c = '_')

/-- Go regexp `\s`: `[\t\n\f\r ]`. -/
def isSpc (c : Char) : Bool :=
  decide (c = ' ') || decide (c = '\t') || decide (c = '\n') ||
    decide (c = '\x0c') || decide (c = '\r')

/-- Go `unicode.IsSpace` on ASCII, as used by `strings.TrimSpace`:
`[\t\n\v\f\r ]`. -/
def isTrimSpc (c : Char) : Bool := isSpc c || decide (c = '\x0b')

/-- Go `strings.TrimSpace` (ASCII). -/
def trimSpace (l : List Char) : List Char :=
  (l.dropWhile isTrimSpc).reverse.dropWhile isTrimSpc |>.reverse

/-- Go `bufio.ScanLines` drops a single trailing `'\r'` from each line. -/
def dropCR (l : List Char) : List Char :=
  if l.getLast? = some '\r' then l.dropLast else l

/-- One step of `bufio.Scanner` line splitting: accumulate bytes (in reverse)
until a `'\n'`; at end of data a non-empty remainder is a final token and
empty remaining data produces no token. -/
def goLinesGo (acc : List Char) : List Char → List (List Char)
  | [] => [dropCR acc.reverse]
  | c :: rest =>
      if c = '\n' then
        dropCR acc.reverse :: (if rest.isEmpty then [] else goLinesGo [] rest)
      else goLinesGo (c :: acc) rest

/-- The sequence of lines `bufio.Scanner` yields for a byte content. -/
def goLines (content : List Char) : List (List Char) :=
  if content.isEmpty then [] else goLinesGo [] content

/-! ## The pattern library

`compileDefaultPatterns` builds 22 patterns: for each of the 11 base
patterns, an anchored variant (index `i`, priority `i`) and an unanchored
variant (index `i + 11`, priority `i + 11`). -/

/-- A consumption step: eat exactly one character of class `p`. -/
def eat1 (p : Char → Bool) : List Char → Option (List Char)
  | [] => none
  | c :: rest => if p c then some rest else none

/-- Eat exactly `n` characters of class `p` (a fixed-count repetition such as
`\d{4}`). -/
def eatN (p : Char → Bool) : Nat → List Char → Option (List Char)
  | 0, l => some l
  | n + 1, l => (eat1 p l).bind (eatN p n)

/-- Eat a literal character. -/
def eatC (c : Char) : List Char → Option (List Char) :=
  eat1 (fun d => decide (d = c))

/-- Eat a literal string. -/
def eatLit : List Char → List Char → Option (List Char)
  | [], l => some l
  | c :: cs, l => (eatC c l).bind (eatLit cs)

/-- Eat one or more characters of class `p`, greedily.  Every use below is
followed by a requirement outside `p`, so greedy consumption matches the
regex semantics. -/
def eatMany1 (p : Char → Bool) (l : List Char) : Option (List Char) :=
  match l with
  | [] => none
  | c :: rest => if p c then some (rest.dropWhile p) else none

/-- Regex fragment `\d{2}:\d{2}:\d{2}`, the time-of-day core shared by most
patterns. -/
def eatHMS (l : List Char) : Option (List Char) :=
  (eatN isDig 2 l).bind (eatC ':') |>.bind (eatN isDig 2) |>.bind (eatC ':')
    |>.bind (eatN isDig 2)

/-- Regex fragment `\d{4}-\d{2}-\d{2}`, the dash date core. -/
def eatDateDash (l : List Char) : Option (List Char) :=
  (eatN isDig 4 l).bind (eatC '-') |>.bind (eatN isDig 2) |>.bind (eatC '-')
    |>.bind (eatN isDig 2)

/-- Regex fragment `\d{1,2}` followed by the requirement that the next
character is not a digit (in `Syslog` the repetition is followed by `\s+`):
Go's backtracking succeeds exactly when the maximal digit run has length 1
or 2. -/
def eatDig12 (l : List Char) : Option (List Char) :=
  let ds := l.takeWhile isDig
  if ds.length = 1 || ds.length = 2 then some (l.dropWhile isDig) else none

/-- Anchored matcher for `msg=audit\((\d{10,19}):\d+\)` at the start of `l`;
returns the captured digit group.  The `\d{10,19}` repetition is followed by
`:`, so a match forces the maximal digit run to have length 10..19. -/
def auditCaptureAt (l : List Char) : Option (List Char) :=
  match eatLit ("msg=audit(" : String).data l with
  | none => none
  | some r =>
      let ds := r.takeWhile isDig
      if 10 ≤ ds.length ∧ ds.length ≤ 19 then
        match (eatC ':' (r.dropWhile isDig)).bind (eatMany1 isDig)
            |>.bind (eatC ')') with
        | some _ => some ds
        | none => none
      else none

/-- Matcher for the required part of base pattern `k` at the start of the
line (`regexp.MatchString` of the anchored variant `"^" + regex`).
Base patterns, in library order:
0 `ISO8601_Micro`, 1 `ISO8601`, 2 `DateTime_Slash`, 3 `DateTime_Dash`,
4 `DateTime_Micro`, 5 `DateTime_Milli`, 6 `Glog_Short`, 7 `Glog_Long`,
8 `Syslog`, 9 `Apache`, 10 `Audit`. -/
def baseMatch (k : Nat) (l : List Char) : Bool :=
  match k with
  | 0 => -- \d{4}-\d{2}-\d{2}T\d{2}:\d{2}:\d{2}(?:\.\d+)?Z?
      ((eatDateDash l).bind (eatC 'T') |>.bind eatHMS).isSome
  | 1 => -- \d{4}-\d{2}-\d{2}T\d{2}:\d{2}:\d{2}Z?
      ((eatDateDash l).bind (eatC 'T') |>.bind eatHMS).isSome
  | 2 => -- \d{4}/\d{2}/\d{2}\s+\d{2}:\d{2}:\d{2}
      ((eatN isDig 4 l).bind (eatC '/') |>.bind (eatN isDig 2)
        |>.bind (eatC '/') |>.bind (eatN isDig 2) |>.bind (eatMany1 isSpc)
        |>.bind eatHMS).isSome
  | 3 => -- \d{4}-\d{2}-\d{2}\s+\d{2}:\d{2}:\d{2}
      ((eatDateDash l).bind (eatMany1 isSpc) |>.bind eatHMS).isSome
  | 4 => -- \d{4}-\d{2}-\d{2}\s+\d{2}:\d{2}:\d{2}\.\d+
      ((eatDateDash l).bind (eatMany1 isSpc) |>.bind eatHMS |>.bind (eatC '.')
        |>.bind (eatMany1 isDig)).isSome
  | 5 => -- \d{4}-\d{2}-\d{2}\s+\d{2}:\d{2}:\d{2},\d{3}Z?
      ((eatDateDash l).bind (eatMany1 isSpc) |>.bind eatHMS |>.bind (eatC ',')
        |>.bind (eatN isDig 3)).isSome
  | 6 => -- [IWEF]\d{4}\s+\d{2}:\d{2}:\d{2}\.\d+Z?
      ((eat1 (fun c => decide (c = 'I') || decide (c = 'W') || decide (c = 'E')
          || decide (c = 'F')) l).bind (eatN isDig 4)
        |>.bind (eatMany1 isSpc) |>.bind eatHMS |>.bind (eatC '.')
        |>.bind (eatMany1 isDig)).isSome
  | 7 => -- [IWEF]\d{8}\s+\d{2}:\d{2}:\d{2}\.\d+Z?
      ((eat1 (fun c => decide (c = 'I') || decide (c = 'W') || decide (c = 'E')
          || decide (c = 'F')) l).bind (eatN isDig 8)
        |>.bind (eatMany1 isSpc) |>.bind eatHMS |>.bind (eatC '.')
        |>.bind (eatMany1 isDig)).isSome
  | 8 => -- \w{3}\s+\d{1,2}\s+\d{2}:\d{2}:\d{2}
      ((eatN isWord 3 l).bind (eatMany1 isSpc) |>.bind eatDig12
        |>.bind (eatMany1 isSpc) |>.bind eatHMS).isSome
  | 9 => -- \d{2}/\w{3}/\d{4}:\d{2}:\d{2}:\d{2}\s+\+\d{4}
      ((eatN isDig 2 l).bind (eatC '/') |>.bind (eatN isWord 3)
        |>.bind (eatC '/') |>.bind (eatN isDig 4) |>.bind (eatC ':')
        |>.bind eatHMS |>.bind (eatMany1 isSpc) |>.bind (eatC '+')
        |>.bind (eatN isDig 4)).isSome
  | 10 => (auditCaptureAt l).isSome
  | _ => false

/-- Leftmost occurrence search for the unanchored audit pattern
(`regexp.FindStringSubmatch`): the capture at the earliest start position. -/
def auditCaptureFind : List Char → Option (List Char)
  | [] => none
  | l@(_ :: rest) =>
      match auditCaptureAt l with
      | some ds => some ds
      | none => auditCaptureFind rest

/-- Unanchored `regexp.MatchString`: a match starting at some position. -/
def matchSomewhere (m : List Char → Bool) : List Char → Bool
  | [] => m []
  | l@(_ :: rest) => m l || matchSomewhere m rest

/-- Number of patterns in the compiled library. -/
def patternCount : Nat := 22

/-- Model of `regexp.MatchString` for pattern index `i` of the compiled
library: indices 0–10 are the anchored variants, 11–21 the unanchored
ones. -/
def matchesLine (i : Nat) (l : List Char) : Bool :=
  if i < 11 then baseMatch i l else matchSomewhere (baseMatch (i - 11)) l

/-- The pattern's `Layout` is the sentinel `"unix"` exactly for the audit
pattern (indices 10 and 21). -/
def isUnixLayout (i : Nat) : Bool := decide (i = 10) || decide (i = 21)

/-! ## Timestamp parsing (`parseTimestampWithPattern`, `ParseTimestamp`) -/

/-- Numeric value of a digit list (most significant first). -/
def digitsToNat : List Char → Nat :=
  List.foldl (fun acc c => acc * 10 + (c.toNat - ('0' : Char).toNat)) 0

/-- Model of `strconv.ParseInt(s, 10, 64)` on a string of decimal digits:
fails on the empty string, a non-digit, or a value above `MaxInt64`. -/
def parseInt64 (s : List Char) : Option Int :=
  if s ≠ [] ∧ s.all isDig ∧ digitsToNat s ≤ 9223372036854775807 then
    some (digitsToNat s)
  else none

/-- The `case "unix"` branch of `parseTimestampWithPattern` applied to the
captured digit group: decode by digit count as seconds / milliseconds /
microseconds / nanoseconds (`time.Unix(sec, nsec) = sec * 10^9 + nsec`;
Go `/` and `%` on the non-negative `unixTime` agree with Nat division). -/
def parseUnixTimestamp (s : List Char) : Option Int :=
  match parseInt64 s with
  | none => none
  | some unixTime =>
      match s.length with
      | 10 => some (unixTime * 1000000000)
      | 13 => some ((unixTime / 1000) * 1000000000 + (unixTime % 1000) * 1000000)
      | 16 => some ((unixTime / 1000000) * 1000000000 + (unixTime % 1000000) * 1000)
      | 19 => some ((unixTime / 1000000000) * 1000000000 + unixTime % 1000000000)
      | _ => none

/-- The abstract interface to the calendar branches of
`parseTimestampWithPattern` (the `"Jan 2 15:04:05"` case and the `default`
case), which call Go's `time.Parse` / `time.Now`: given a pattern index and
a line the pattern matches, the result of layout-parsing the leftmost
match. -/
def CalParse : Type := Nat → List Char → Option Int

/-- Model of `parseTimestampWithPattern` for pattern index `i`: fail when
the regex does not match (`FindStringSubmatch` empty); for the audit
pattern, decode the captured group as a Unix timestamp; otherwise defer to
the calendar-parsing abstraction. -/
def parseWithPattern (calParse : CalParse) (i : Nat) (line : List Char) :
    Option Int :=
  if matchesLine i line then
    if i = 10 then (auditCaptureAt line).bind parseUnixTimestamp
    else if i = 21 then (auditCaptureFind line).bind parseUnixTimestamp
    else calParse i line
  else none

/-- Calendar-layout parsing is irrelevant to the audit-only concrete files
used below: none of their lines matches a calendar pattern, so the
`calParse` abstraction is never consulted and the counterexamples
instantiate it with the everywhere-failing function. -/
def calParseNone : CalParse := fun _ _ => none

/-- Model of `ParseTimestamp(line, bestPattern)`: try the best pattern
first, then fall back to every pattern in library order. -/
def parseTimestamp (calParse : CalParse) (best : Option Nat)
    (line : List Char) : Option Int :=
  match best with
  | some b =>
      match parseWithPattern calParse b line with
      | some t => some t
      | none => (List.range patternCount).findSome?
          (fun i => parseWithPattern calParse i line)
  | none => (List.range patternCount).findSome?
      (fun i => parseWithPattern calParse i line)

/-! ## Pattern detection (`DetectBestPattern`) -/

/-- The first 10 non-empty lines of the file, each `TrimSpace`d, exactly as
the sampling loop of `DetectBestPattern` sees them. -/
def sampleLines (content : List Char) : List (List Char) :=
  (((goLines content).map trimSpace).filter (fun l => !l.isEmpty)).take 10

/-- `patternMatches[i]`: how many sampled lines pattern `i` matches. -/
def countMatches (i : Nat) (content : List Char) : Nat :=
  ((sampleLines content).filter (fun l => matchesLine i l)).length

/-- `firstTimestamp[i]`: the parse of the first sampled line that pattern
`i` matches and parses (`none` when the map has no entry, i.e. the zero
`time.Time`). -/
def firstTimestamp (calParse : CalParse) (i : Nat) (content : List Char) :
    Option Int :=
  (sampleLines content).findSome? (fun l => parseWithPattern calParse i l)

/-- The key set of the `patternMatches` map: the pattern indices with at
least one match. -/
def detectKeys (content : List Char) : List Nat :=
  (List.range patternCount).filter (fun i => 0 < countMatches i content)

/-- An admissible iteration order of the `patternMatches` map: Go iterates
over exactly its keys, in an unspecified order. -/
@[reducible] def DetectOrder (content : List Char) (order : List Nat) : Prop :=
  order.Perm (detectKeys content)

/-- The selection loop of `DetectBestPattern`: scan the map entries in
iteration order, keeping the first strictly larger count
(`bestPatternIndex = -1` is `none`). -/
def selectBest (counts : Nat → Nat) (order : List Nat) : Option Nat × Nat :=
  order.foldl
    (fun bm i => if counts i > bm.2 then (some i, counts i) else bm)
    (none, 0)

/-- Model of `PatternDetectionResult`.  `bestPattern` is the index into the
compiled library (`none` for Go's `nil`); `sampleTime` is `none` for the
zero `time.Time`; `confidence` is the exact rational
`matchCount / lineCount`, written with the kernel-computable `mkRat`
(`mkRat m n = (m : ℚ) / (n : ℚ)`; for the line counts at hand, at most 10,
the `float64` division and comparison of the source are exact in the sense
that they order these values exactly as the rationals do). -/
structure PatternDetectionResult where
  bestPattern : Option Nat
  matchCount : Nat
  sampleTime : Option Int
  confidence : ℚ
deriving DecidableEq, Repr

/-- Model of `DetectBestPattern`, parameterised by the map iteration
order. -/
def detectBestPattern (calParse : CalParse) (order : List Nat)
    (content : List Char) : PatternDetectionResult :=
  let lineCount := (sampleLines content).length
  match selectBest (fun i => countMatches i content) order with
  | (none, _) => ⟨none, 0, none, 0⟩
  | (some i, maxMatches) =>
      ⟨some i, maxMatches, firstTimestamp calParse i content,
        mkRat (maxMatches : Int) lineCount⟩

/-! ## Content-based log classification (`scanner.isLogFileByContent`) -/

/-- Model of `isLogFileByContent`: accept when `MatchCount ≥ 2` and
`Confidence ≥ 0.3`. -/
def isLogFileByContent (calParse : CalParse) (order : List Nat)
    (content : List Char) : Bool :=
  decide ((detectBestPattern calParse order content).matchCount ≥ 2) &&
    decide ((detectBestPattern calParse order content).confidence ≥ mkRat 3 10)

/-! ## Bounds extraction (`BoundsExtractor`) -/

/-- Model of `TimeBounds` (the file path is irrelevant to the modelled
logic; the zero `time.Time` of an unset field is `0`). -/
structure TimeBounds where
  earliest : Int := 0
  latest : Int := 0
  valid : Bool := false
  bestPattern : Option Nat := none
  earliestLine : List Char := []
  latestLine : List Char := []
deriving Repr

/-- Model of `FindLineWithTimestamp(reader, bestPattern, maxLines)`: the
first of (at most) the first `maxLines` lines that parses, with its
timestamp (`none` models the error return). -/
def findLineWithTimestamp (calParse : CalParse) (best : Option Nat)
    (ls : List (List Char)) (maxLines : Nat) : Option (Int × List Char) :=
  (if maxLines = 0 then ls else ls.take maxLines).findSome?
    (fun l => (parseTimestamp calParse best l).map (fun t => (t, l)))

/-- `MaxLinesToCheckForTimestamp`. -/
def maxLinesToCheckForTimestamp : Nat := 100

/-- Model of `findEarliestTimestamp`: scan the first 100 lines from the
top. -/
def findEarliestTimestamp (calParse : CalParse) (best : Option Nat)
    (content : List Char) : Option (Int × List Char) :=
  findLineWithTimestamp calParse best (goLines content)
    maxLinesToCheckForTimestamp

/-- Model of `splitLinesReverse`: split into lines, `TrimSpace` each, skip
empties, reverse. -/
def splitLinesReverse (buffer : List Char) : List (List Char) :=
  ((((goLines buffer).map trimSpace).filter (fun l => !l.isEmpty))).reverse

/-- Model of `findLatestTimestamp`: read the last 64 KB (or the whole file
if smaller) and scan its lines backward for the first parseable one. -/
def findLatestTimestamp (calParse : CalParse) (best : Option Nat)
    (content : List Char) : Option (Int × List Char) :=
  let fileSize := content.length
  let readSize := min (64 * 1024) fileSize
  let buffer := content.drop (fileSize - readSize)
  (splitLinesReverse buffer).findSome?
    (fun l => (parseTimestamp calParse best l).map (fun t => (t, l)))

/-- Model of `ExtractBounds`: the returned `TimeBounds` together with a flag
recording whether an error was returned alongside it.  No pattern detected
is *not* an error; a failed earliest/latest scan is. -/
def extractBounds (calParse : CalParse) (order : List Nat)
    (content : List Char) : TimeBounds × Bool :=
  match (detectBestPattern calParse order content).bestPattern with
  | none => ({ valid := false }, false)
  | some i =>
      match findEarliestTimestamp calParse (some i) content with
      | none => ({ valid := false, bestPattern := some i }, true)
      | some (earliest, earliestLine) =>
          match findLatestTimestamp calParse (some i) content with
          | none => ({ valid := false, bestPattern := some i }, true)
          | some (latest, latestLine) =>
              ({ earliest := earliest, latest := latest, valid := true,
                 bestPattern := some i, earliestLine := earliestLine,
                 latestLine := latestLine }, false)

/-! ## Time ranges and global bounds -/

/-- Model of `models.TimeRange`. -/
structure TimeRange where
  start : Int
  «end» : Int
deriving DecidableEq, Repr

/-- Model of `models.NewTimeRange`: construction fails when
`start.After(end)`. -/
def newTimeRange (s e : Int) : Option TimeRange :=
  if s > e then none else some ⟨s, e⟩

/-- One step of the `FindGlobalTimeBounds` fold: skip invalid bounds,
initialise on the first valid one, then track min-earliest / max-latest. -/
def globalBoundsStep (acc : Option (Int × Int)) (b : TimeBounds) :
    Option (Int × Int) :=
  if !b.valid then acc
  else
    match acc with
    | none => some (b.earliest, b.latest)
    | some (e, l) =>
        some ((if b.earliest < e then b.earliest else e),
              (if b.latest > l then b.latest else l))

/-- Model of `FindGlobalTimeBounds`: fold min-earliest / max-latest over the
valid bounds; `none` when the list is empty or no entry is valid (and, via
`newTimeRange`, when the accumulated range is inverted, since the source
discards the construction error). -/
def findGlobalTimeBounds (bounds : List TimeBounds) : Option TimeRange :=
  if bounds.isEmpty then none
  else
    match bounds.foldl globalBoundsStep none with
    | none => none
    | some (e, l) => newTimeRange e l

/-! ## Histogram bins (`createTimeBins`) -/

/-- Model of `TimeBin`. -/
structure TimeBin where
  start : Int
  «end» : Int
deriving DecidableEq, Repr

/-- The loop of `createTimeBins`: `k` bins remain, `cur` is `currentTime`;
the last bin's end is pinned to `rangeEnd`. -/
def createTimeBinsGo (binDuration rangeEnd : Int) : Nat → Int → List TimeBin
  | 0, _ => []
  | k + 1, cur =>
      if k = 0 then [⟨cur, rangeEnd⟩]
      else ⟨cur, cur + binDuration⟩ :: createTimeBinsGo binDuration rangeEnd k (cur + binDuration)

/-- Model of `createTimeBins(globalRange, binCount)`.  `Duration()` is
`end - start`; Go's `time.Duration` division truncates toward zero
(`Int.tdiv`).  (`BuildHistogram` only calls this with `binCount ≥ 1`;
a zero `binCount` would divide by zero in Go.) -/
def createTimeBins (globalRange : TimeRange) (binCount : Nat) : List TimeBin :=
  let duration := globalRange.«end» - globalRange.start
  let binDuration := Int.tdiv duration (binCount : Int)
  createTimeBinsGo binDuration globalRange.«end» binCount globalRange.start

/-! ## The memory-mapped binary search engine (`MmapFileSearcher`)

The searcher's `ParseTimestamp(line, bestPattern)` call is a fixed function
of the line once the extractor and best pattern are fixed; the searcher is
therefore parameterised by `parse : List Char → Option Int`
(instantiated with `parseTimestamp calParse best` for a concrete file). -/

/-- Model of `findLineStart(pos)`: roll back from `pos - 1` to the byte
after the previous newline (0 at the beginning of the file). -/
def findLineStart (data : List Char) : Nat → Nat
  | 0 => 0
  | i + 1 => if data.get? i = some '\n' then i + 1 else findLineStart data i

/-- Model of `findLineEnd(pos)`: roll forward to the next newline
(`data.length` at the end of the file). -/
def findLineEnd (data : List Char) (pos : Nat) : Nat :=
  if h : pos < data.length then
    if data.get ⟨pos, h⟩ = '\n' then pos else findLineEnd data (pos + 1)
  else data.length
termination_by data.length - pos

theorem findLineStart_le (data : List Char) (pos : Nat) :
    findLineStart data pos ≤ pos := by
  induction pos with
  | zero => simp [findLineStart]
  | succ i ih =>
      rw [findLineStart]
      split
      · exact Nat.le_refl _
      · exact Nat.le_trans ih (Nat.le_succ i)

theorem findLineStart_no_newline (data : List Char) (pos : Nat) :
    ∀ j, findLineStart data pos ≤ j → j < pos → ¬ data.get? j = some '\n' := by
  induction pos with
  | zero => intro j _ hj; exact absurd hj (Nat.not_lt_zero j)
  | succ i ih =>
      intro j h1 h2
      rw [findLineStart] at h1
      by_cases hn : data.get? i = some '\n'
      · rw [if_pos hn] at h1; omega
      · rw [if_neg hn] at h1
        rcases Nat.lt_succ_iff_lt_or_eq.mp h2 with h | h
        · exact ih j h1 h
        · exact h ▸ hn

theorem findLineEnd_ge (data : List Char) (pos : Nat)
    (hpos : pos ≤ data.length) : pos ≤ findLineEnd data pos := by
  rw [findLineEnd]
  split
  · rename_i hlt
    split
    · exact Nat.le_refl _
    · exact Nat.le_trans (Nat.le_succ pos) (findLineEnd_ge data (pos + 1) hlt)
  · exact hpos
termination_by data.length - pos

theorem findLineEnd_le_length (data : List Char) (pos : Nat) :
    findLineEnd data pos ≤ data.length := by
  rw [findLineEnd]
  split
  · split
    · omega
    · exact findLineEnd_le_length data (pos + 1)
  · exact Nat.le_refl _
termination_by data.length - pos

theorem findLineEnd_newline (data : List Char) (pos : Nat)
    (h : findLineEnd data pos < data.length) :
    data.get? (findLineEnd data pos) = some '\n' := by
  by_cases hlt : pos < data.length
  · by_cases hn : data.get ⟨pos, hlt⟩ = '\n'
    · rw [findLineEnd, dif_pos hlt, if_pos hn]
      rw [List.get?_eq_get hlt, hn]
    · rw [findLineEnd, dif_pos hlt, if_neg hn] at h ⊢
      exact findLineEnd_newline data (pos + 1) h
  · rw [findLineEnd, dif_neg hlt] at h
    omega
termination_by data.length - pos

theorem findLineEnd_no_newline (data : List Char) (pos : Nat) :
    ∀ j, pos ≤ j → j < findLineEnd data pos → ¬ data.get? j = some '\n' := by
  intro j h1 h2
  by_cases hlt : pos < data.length
  · by_cases hn : data.get ⟨pos, hlt⟩ = '\n'
    · rw [findLineEnd, dif_pos hlt, if_pos hn] at h2
      omega
    · rw [findLineEnd, dif_pos hlt, if_neg hn] at h2
      rcases Nat.eq_or_lt_of_le h1 with h | h
      · subst h
        rw [List.get?_eq_get hlt]
        intro hc
        exact hn (Option.some.inj hc)
      · exact findLineEnd_no_newline data (pos + 1) j h h2
  · rw [findLineEnd, dif_neg hlt] at h2
    intro hc
    have hj := (List.get?_eq_some.mp hc).1
    omega
termination_by data.length - pos

/-- No newline lies between a position and the start of its line, so the
end of that line is at or after the position. -/
theorem le_findLineEnd_findLineStart (data : List Char) (pos : Nat)
    (hpos : pos ≤ data.length) :
    pos ≤ findLineEnd data (findLineStart data pos) := by
  by_contra hlt
  push_neg at hlt
  have h1 : findLineEnd data (findLineStart data pos) < data.length :=
    Nat.lt_of_lt_of_le hlt hpos
  have h2 := findLineEnd_newline data (findLineStart data pos) h1
  exact findLineStart_no_newline data pos _
    (findLineEnd_ge data (findLineStart data pos)
      (Nat.le_trans (findLineStart_le data pos) hpos)) hlt h2

/-- Model of `extractLineAt(pos)` (just the line; the searcher uses the
start and end positions separately). -/
def extractLineAt (data : List Char) (pos : Nat) : List Char :=
  let lineStart := findLineStart data pos
  let lineEnd := findLineEnd data lineStart
  if lineStart ≥ lineEnd then []
  else (data.drop lineStart).take (lineEnd - lineStart)

/-- Model of `parseTimestampAt(pos)`: an empty line is an error. -/
def parseTimestampAt (parse : List Char → Option Int) (data : List Char)
    (pos : Nat) : Option Int :=
  let line := extractLineAt data pos
  if line.isEmpty then none else parse line

/-- Model of `findNextValidTimestamp(startPos)`: scan forward line by line
for the first line with a parseable timestamp (`none` is Go's `-1`). -/
def findNextValidTimestamp (parse : List Char → Option Int)
    (data : List Char) (pos : Nat) : Option Nat :=
  if h : pos < data.length then
    if findLineEnd data (findLineStart data pos) > findLineStart data pos ∧
        ((data.drop (findLineStart data pos)).take
          (findLineEnd data (findLineStart data pos) -
            findLineStart data pos) |> parse).isSome then
      some (findLineStart data pos)
    else
      findNextValidTimestamp parse data
        (findLineEnd data (findLineStart data pos) + 1)
  else none
termination_by data.length - pos
decreasing_by
  have := le_findLineEnd_findLineStart data pos (Nat.le_of_lt h)
  omega

/-- The comparison of `binarySearchTime`: with `searchStart` the condition
is `!timestamp.Before(targetTime)`, otherwise `timestamp.After(targetTime)`. -/
def bstCond (searchStart : Bool) (targetTime timestamp : Int) : Bool :=
  if searchStart then decide (¬ timestamp < targetTime)
  else decide (timestamp > targetTime)

/-- The loop body of `binarySearchTime`, with explicit fuel; the state is
`(left, right, result)`.  `bstLoop_fuel_stable` below shows the fuel
supplied by `binarySearchTime` never runs out, because the window
`right - left` strictly shrinks at every iteration. -/
def bstLoop (parse : List Char → Option Int) (data : List Char)
    (targetTime : Int) (searchStart : Bool) :
    Nat → Nat → Nat → Nat → Nat
  | 0, _, _, result => result
  | fuel + 1, left, right, result =>
      if left < right then
        let mid := left + (right - left) / 2
        let lineStart := findLineStart data mid
        match parseTimestampAt parse data lineStart with
        | some timestamp =>
            if bstCond searchStart targetTime timestamp then
              bstLoop parse data targetTime searchStart fuel left mid lineStart
            else
              bstLoop parse data targetTime searchStart fuel
                (findLineEnd data lineStart + 1) right result
        | none =>
            match findNextValidTimestamp parse data lineStart with
            | none =>
                bstLoop parse data targetTime searchStart fuel left mid result
            | some nextValidPos =>
                match parseTimestampAt parse data nextValidPos with
                | none =>
                    bstLoop parse data targetTime searchStart fuel left mid
                      result
                | some timestamp =>
                    if bstCond searchStart targetTime timestamp then
                      bstLoop parse data targetTime searchStart fuel left mid
                        nextValidPos
                    else
                      bstLoop parse data targetTime searchStart fuel
                        (findLineEnd data nextValidPos + 1) right result
      else result

/-- Model of `binarySearchTime(targetTime, searchStart)`: binary search over
`[0, len)` with initial `result = len`. -/
def binarySearchTime (parse : List Char → Option Int) (data : List Char)
    (targetTime : Int) (searchStart : Bool) : Nat :=
  bstLoop parse data targetTime searchStart (data.length + 1) 0 data.length
    data.length

/-- Model of `BinarySearchTimeRange(startTime, endTime)`. -/
def binarySearchTimeRange (parse : List Char → Option Int)
    (data : List Char) (startTime endTime : Int) : Nat :=
  if data.length = 0 then 0
  else
    let startPos := binarySearchTime parse data startTime true
    let endPos := binarySearchTime parse data endTime false
    if endPos > startPos then endPos - startPos else 0

/-! ## The linear fallback (`countBytesInTimeRangeLinear`) -/

/-- The scanning loop of `countBytesInTimeRangeLinear`: an `inRange` flag,
`len(line) + 1` bytes per counted line, early stop past `endTime`. -/
def linearLoop (parse : List Char → Option Int) (startTime endTime : Int) :
    List (List Char) → Bool → Nat → Nat
  | [], _, byteCount => byteCount
  | line :: rest, inRange, byteCount =>
      let lineBytes := line.length + 1
      match parse line with
      | some timestamp =>
          if ¬ timestamp < startTime ∧ ¬ timestamp > endTime then
            linearLoop parse startTime endTime rest true (byteCount + lineBytes)
          else if timestamp > endTime then byteCount
          else if timestamp < startTime then
            linearLoop parse startTime endTime rest false byteCount
          else linearLoop parse startTime endTime rest inRange byteCount
      | none =>
          if inRange then
            linearLoop parse startTime endTime rest inRange
              (byteCount + lineBytes)
          else linearLoop parse startTime endTime rest inRange byteCount

/-- Model of `countBytesInTimeRangeLinear`. -/
def countBytesInTimeRangeLinear (parse : List Char → Option Int)
    (content : List Char) (startTime endTime : Int) : Nat :=
  linearLoop parse startTime endTime (goLines content) false 0

/-! ## Line-structure lemmas for the searcher -/

theorem findLineStart_zero_or_newline (data : List Char) (pos : Nat) :
    findLineStart data pos = 0 ∨
      (0 < findLineStart data pos ∧
        data.get? (findLineStart data pos - 1) = some '\n') := by
  induction pos with
  | zero => exact Or.inl rfl
  | succ i ih =>
      rw [findLineStart]
      by_cases hn : data.get? i = some '\n'
      · rw [if_pos hn]
        exact Or.inr ⟨Nat.succ_pos i, by simpa using hn⟩
      · rw [if_neg hn]
        exact ih

theorem findLineStart_succ_newline (data : List Char) (i : Nat)
    (h : data.get? i = some '\n') : findLineStart data (i + 1) = i + 1 := by
  rw [findLineStart, if_pos h]

theorem findLineStart_mono (data : List Char) {p q : Nat} (h : p ≤ q) :
    findLineStart data p ≤ findLineStart data q := by
  induction q with
  | zero =>
      rw [Nat.le_zero.mp h]
  | succ i ih =>
      rcases Nat.eq_or_lt_of_le h with h' | h'
      · rw [h']
      · have hpi : p ≤ i := Nat.lt_succ_iff.mp h'
        rw [findLineStart]
        by_cases hn : data.get? i = some '\n'
        · rw [if_pos hn]
          exact Nat.le_trans (findLineStart_le data p) (Nat.le_trans hpi (Nat.le_succ i))
        · rw [if_neg hn]
          exact ih hpi

theorem findLineStart_idem (data : List Char) (pos : Nat) :
    findLineStart data (findLineStart data pos) = findLineStart data pos := by
  rcases findLineStart_zero_or_newline data pos with h | ⟨hpos, hnl⟩
  · rw [h]
    rfl
  · have heq : findLineStart data pos = (findLineStart data pos - 1) + 1 := by
      omega
    rw [heq, findLineStart_succ_newline data _ hnl]

/-- A line start below `pos` with no newline in between pins down
`findLineStart data pos`. -/
theorem findLineStart_unique (data : List Char) (p' pos : Nat)
    (h1 : p' ≤ pos)
    (hstart : p' = 0 ∨ (0 < p' ∧ data.get? (p' - 1) = some '\n'))
    (hno : ∀ j, p' ≤ j → j < pos → ¬ data.get? j = some '\n') :
    findLineStart data pos = p' := by
  rcases Nat.lt_trichotomy (findLineStart data pos) p' with h | h | h
  · exfalso
    rcases hstart with h0 | ⟨hp0, hnl⟩
    · omega
    · exact findLineStart_no_newline data pos (p' - 1) (by omega) (by omega)
        hnl
  · exact h
  · exfalso
    rcases findLineStart_zero_or_newline data pos with h0 | ⟨hf0, hnl⟩
    · omega
    · exact hno (findLineStart data pos - 1) (by omega)
        (by have := findLineStart_le data pos; omega) hnl

/-- A newline (or the end of data) with no newline since `p` pins down
`findLineEnd data p`. -/
theorem findLineEnd_unique (data : List Char) (p q : Nat) (h1 : p ≤ q)
    (hno : ∀ j, p ≤ j → j < q → ¬ data.get? j = some '\n')
    (hq : data.get? q = some '\n' ∨ q = data.length) :
    findLineEnd data p = q := by
  have hqN : q ≤ data.length := by
    rcases hq with h | h
    · exact Nat.le_of_lt (List.get?_eq_some.mp h).1
    · omega
  rcases Nat.lt_trichotomy (findLineEnd data p) q with h | h | h
  · exfalso
    have hlt : findLineEnd data p < data.length := by omega
    exact hno (findLineEnd data p) (findLineEnd_ge data p (by omega)) h
      (findLineEnd_newline data p hlt)
  · exact h
  · exfalso
    rcases hq with hnl | hN
    · exact findLineEnd_no_newline data p q h1 h hnl
    · have := findLineEnd_le_length data p
      omega

/-- The timestamp parsed from the line starting at `s` (the slice from `s`
to the line's end). -/
def lineVal (parse : List Char → Option Int) (data : List Char) (s : Nat) :
    Option Int :=
  parse ((data.drop s).take (findLineEnd data s - s))

/-- A position is a valid probe value when it starts a non-empty line whose
slice parses; these are exactly the positions `findNextValidTimestamp` can
return and `binarySearchTime` can record. -/
def ValidStart (parse : List Char → Option Int) (data : List Char)
    (s : Nat) : Prop :=
  findLineStart data s = s ∧ s < findLineEnd data s ∧
    (lineVal parse data s).isSome = true

theorem ValidStart.lt_length {parse : List Char → Option Int}
    {data : List Char} {s : Nat} (h : ValidStart parse data s) :
    s < data.length :=
  Nat.lt_of_lt_of_le h.2.1 (findLineEnd_le_length data s)

theorem parseTimestampAt_eq (parse : List Char → Option Int)
    (data : List Char) (pos : Nat) :
    parseTimestampAt parse data pos =
      if findLineStart data pos <
          findLineEnd data (findLineStart data pos) then
        lineVal parse data (findLineStart data pos)
      else none := by
  rw [parseTimestampAt, extractLineAt]
  by_cases h : findLineStart data pos <
      findLineEnd data (findLineStart data pos)
  · rw [if_pos h]
    simp only [if_neg (by omega : ¬ findLineStart data pos ≥
      findLineEnd data (findLineStart data pos))]
    have hN := findLineEnd_le_length data (findLineStart data pos)
    rw [if_neg]
    · rfl
    · rw [List.isEmpty_iff, ← List.length_eq_zero, List.length_take,
        List.length_drop]
      omega
  · rw [if_neg h]
    simp only [if_pos (by omega : findLineStart data pos ≥
      findLineEnd data (findLineStart data pos))]
    rw [if_pos]
    rfl

theorem parseTimestampAt_some_iff (parse : List Char → Option Int)
    (data : List Char) (pos : Nat) (v : Int) :
    parseTimestampAt parse data pos = some v ↔
      ValidStart parse data (findLineStart data pos) ∧
        lineVal parse data (findLineStart data pos) = some v := by
  rw [parseTimestampAt_eq]
  constructor
  · intro h
    split at h
    · rename_i hlt
      exact ⟨⟨findLineStart_idem data pos, hlt, by rw [h]; rfl⟩, h⟩
    · exact absurd h (by simp)
  · intro ⟨hv, hval⟩
    rw [if_pos hv.2.1]
    exact hval

theorem parseTimestampAt_none_iff (parse : List Char → Option Int)
    (data : List Char) (pos : Nat) :
    parseTimestampAt parse data pos = none ↔
      ¬ ValidStart parse data (findLineStart data pos) := by
  rw [parseTimestampAt_eq]
  constructor
  · intro h hv
    rw [if_pos hv.2.1] at h
    have h2 := hv.2.2
    rw [h] at h2
    simp at h2
  · intro hv
    split
    · rename_i hlt
      rcases ho : lineVal parse data (findLineStart data pos) with _ | v
      · rfl
      · exact absurd ⟨findLineStart_idem data pos, hlt, by rw [ho]; rfl⟩ hv
    · rfl

theorem parseTimestampAt_of_valid (parse : List Char → Option Int)
    (data : List Char) (s : Nat) (hs : ValidStart parse data s) :
    parseTimestampAt parse data s = lineVal parse data s := by
  rw [parseTimestampAt_eq, hs.1, if_pos hs.2.1]

/-- No line can start strictly inside another line (between a line's start
and its end there is no newline, hence no following line start). -/
theorem valid_start_not_in_line (data : List Char) (p u : Nat)
    (hu : findLineStart data u = u) (h1 : findLineStart data p < u)
    (h2 : u ≤ findLineEnd data (findLineStart data p)) : False := by
  rcases findLineStart_zero_or_newline data u with h0 | ⟨hu0, hnl⟩
  · omega
  · rw [hu] at hnl
    exact findLineEnd_no_newline data (findLineStart data p) (u - 1)
      (by omega) (by omega) hnl

/-- Specification of `findNextValidTimestamp` at a line start that returns
nothing: no valid line start exists at or after it. -/
theorem fnv_none (parse : List Char → Option Int) (data : List Char) :
    ∀ p, p = findLineStart data p →
      findNextValidTimestamp parse data p = none →
      ∀ u, ValidStart parse data u → p ≤ u → False := by
  intro p hp h u hu hle
  by_cases hN : p < data.length
  · rw [findNextValidTimestamp, dif_pos hN] at h
    split at h
    · exact absurd h (by simp)
    · rename_i hchk
      rcases Nat.eq_or_lt_of_le hle with h' | h'
      · refine hchk ?_
        rw [← h'] at hu
        rw [← hp]
        exact ⟨hu.2.1, hu.2.2⟩
      · by_cases hlim : u ≤ findLineEnd data (findLineStart data p)
        · exact valid_start_not_in_line data p u hu.1 (by omega) hlim
        · push_neg at hlim
          have hleN : findLineEnd data (findLineStart data p) <
              data.length := by
            have := hu.lt_length
            omega
          have hstart : findLineEnd data (findLineStart data p) + 1 =
              findLineStart data
                (findLineEnd data (findLineStart data p) + 1) :=
            (findLineStart_succ_newline data _
              (findLineEnd_newline data (findLineStart data p) hleN)).symm
          exact fnv_none parse data
            (findLineEnd data (findLineStart data p) + 1) hstart h u hu
            (by omega)
  · exact absurd hu.lt_length (by omega)
termination_by p => data.length - p
decreasing_by
  have h1 := findLineStart_le data p
  have h2 := le_findLineEnd_findLineStart data p (by omega)
  omega

/-- Specification of `findNextValidTimestamp` at a line start that returns
a position: the returned position is the least valid line start at or
after it. -/
theorem fnv_some (parse : List Char → Option Int) (data : List Char) :
    ∀ p s, p = findLineStart data p →
      findNextValidTimestamp parse data p = some s →
      ValidStart parse data s ∧ p ≤ s ∧
        (∀ u, ValidStart parse data u → p ≤ u → s ≤ u) := by
  intro p s hp h
  by_cases hN : p < data.length
  · rw [findNextValidTimestamp, dif_pos hN] at h
    split at h
    · rename_i hchk
      have heq : findLineStart data p = s := Option.some.inj h
      have hps : p = s := by rw [hp, heq]
      subst hps
      have h2 := hchk.2
      have h1 := hchk.1
      rw [heq] at h1 h2
      exact ⟨⟨heq, h1, h2⟩, Nat.le_refl p, fun u _ hu => hu⟩
    · rename_i hchk
      have hleN : findLineEnd data (findLineStart data p) < data.length := by
        by_contra hge
        push_neg at hge
        rw [findNextValidTimestamp, dif_neg (by omega)] at h
        exact absurd h (by simp)
      have hstart : findLineEnd data (findLineStart data p) + 1 =
          findLineStart data
            (findLineEnd data (findLineStart data p) + 1) :=
        (findLineStart_succ_newline data _
          (findLineEnd_newline data (findLineStart data p) hleN)).symm
      have hple : p ≤ findLineEnd data (findLineStart data p) :=
        le_findLineEnd_findLineStart data p (by omega)
      rcases fnv_some parse data
          (findLineEnd data (findLineStart data p) + 1) s hstart h with
        ⟨hv, hge, hmin⟩
      refine ⟨hv, by omega, ?_⟩
      intro u hu hle
      rcases Nat.eq_or_lt_of_le hle with h' | h'
      · exfalso
        refine hchk ?_
        rw [← h'] at hu
        rw [← hp]
        exact ⟨hu.2.1, hu.2.2⟩
      · by_cases hlim : u ≤ findLineEnd data (findLineStart data p)
        · exact (valid_start_not_in_line data p u hu.1 (by omega) hlim).elim
        · exact hmin u hu (by omega)
  · rw [findNextValidTimestamp, dif_neg hN] at h
    exact absurd h (by simp)
termination_by p => data.length - p
decreasing_by
  have h1 := findLineStart_le data p
  have h2 := le_findLineEnd_findLineStart data p (by omega)
  omega

/-! ## The binary search loop: termination and invariants -/

/-- One unfolded iteration of `bstLoop` (the loop body with the local
variables `mid` and `lineStart` inlined). -/
theorem bstLoop_step (parse : List Char → Option Int) (data : List Char)
    (targetTime : Int) (searchStart : Bool) (fuel l r res : Nat) :
    bstLoop parse data targetTime searchStart (fuel + 1) l r res =
      if l < r then
        match parseTimestampAt parse data
            (findLineStart data (l + (r - l) / 2)) with
        | some ts =>
            if bstCond searchStart targetTime ts then
              bstLoop parse data targetTime searchStart fuel l
                (l + (r - l) / 2) (findLineStart data (l + (r - l) / 2))
            else
              bstLoop parse data targetTime searchStart fuel
                (findLineEnd data (findLineStart data (l + (r - l) / 2)) + 1)
                r res
        | none =>
            match findNextValidTimestamp parse data
                (findLineStart data (l + (r - l) / 2)) with
            | none =>
                bstLoop parse data targetTime searchStart fuel l
                  (l + (r - l) / 2) res
            | some nv =>
                match parseTimestampAt parse data nv with
                | none =>
                    bstLoop parse data targetTime searchStart fuel l
                      (l + (r - l) / 2) res
                | some ts =>
                    if bstCond searchStart targetTime ts then
                      bstLoop parse data targetTime searchStart fuel l
                        (l + (r - l) / 2) nv
                    else
                      bstLoop parse data targetTime searchStart fuel
                        (findLineEnd data nv + 1) r res
      else res := rfl

/-- After a probe whose own line fails to parse, any position returned by
`findNextValidTimestamp` lies strictly beyond that whole line (and is the
least valid start at or after the line's start). -/
theorem fnv_after_parse_fail (parse : List Char → Option Int)
    (data : List Char) (m : Nat)
    (hfail : parseTimestampAt parse data (findLineStart data m) = none)
    {nv : Nat}
    (h : findNextValidTimestamp parse data (findLineStart data m) =
      some nv) :
    ValidStart parse data nv ∧
      findLineEnd data (findLineStart data m) < nv ∧
      (∀ u, ValidStart parse data u → findLineStart data m ≤ u → nv ≤ u) := by
  have hnotv : ¬ ValidStart parse data (findLineStart data m) := by
    rw [parseTimestampAt_none_iff] at hfail
    rwa [findLineStart_idem] at hfail
  rcases fnv_some parse data (findLineStart data m) nv
      (findLineStart_idem data m).symm h with ⟨hv, hge, hmin⟩
  have hne : nv ≠ findLineStart data m := fun hc => hnotv (hc ▸ hv)
  have hgt : findLineEnd data (findLineStart data m) < nv := by
    by_contra hle
    push_neg at hle
    exact valid_start_not_in_line data m nv hv.1 (by omega) hle
  exact ⟨hv, hgt, hmin⟩

theorem parseTimestampAt_valid_ne_none (parse : List Char → Option Int)
    (data : List Char) (s : Nat) (hs : ValidStart parse data s) :
    parseTimestampAt parse data s ≠ none := by
  rw [parseTimestampAt_of_valid parse data s hs]
  intro hc
  have h2 := hs.2.2
  rw [hc] at h2
  simp at h2

/-- Each loop iteration strictly shrinks the window `right - left`, so one
more unit of fuel never changes the result once the fuel covers the
window. -/
theorem bstLoop_fuel_stable (parse : List Char → Option Int)
    (data : List Char) (targetTime : Int) (searchStart : Bool) :
    ∀ (fuel l r res : Nat), r ≤ data.length → r - l ≤ fuel →
      bstLoop parse data targetTime searchStart fuel l r res =
        bstLoop parse data targetTime searchStart (fuel + 1) l r res := by
  intro fuel
  induction fuel with
  | zero =>
      intro l r res hr hf
      rw [bstLoop_step, if_neg (by omega)]
      rfl
  | succ f ih =>
      intro l r res hr hf
      rw [bstLoop_step, bstLoop_step]
      by_cases hlr : l < r
      · rw [if_pos hlr, if_pos hlr]
        rcases hpt : parseTimestampAt parse data
            (findLineStart data (l + (r - l) / 2)) with _ | ts
        · simp only [hpt]
          rcases hnv : findNextValidTimestamp parse data
              (findLineStart data (l + (r - l) / 2)) with _ | nv
          · simp only [hnv]
            exact ih l (l + (r - l) / 2) res (by omega) (by omega)
          · simp only [hnv]
            rcases fnv_after_parse_fail parse data (l + (r - l) / 2) hpt hnv
              with ⟨hv, hgt, _⟩
            rcases hpt2 : parseTimestampAt parse data nv with _ | ts2
            · exact absurd hpt2
                (parseTimestampAt_valid_ne_none parse data nv hv)
            · simp only [hpt2]
              by_cases hc : bstCond searchStart targetTime ts2 = true
              · rw [if_pos hc, if_pos hc]
                exact ih l (l + (r - l) / 2) nv (by omega) (by omega)
              · rw [if_neg hc, if_neg hc]
                have h3 : l + (r - l) / 2 ≤
                    findLineEnd data (findLineStart data (l + (r - l) / 2)) :=
                  le_findLineEnd_findLineStart data _ (by omega)
                have h4 : nv ≤ findLineEnd data nv :=
                  findLineEnd_ge data nv (Nat.le_of_lt hv.lt_length)
                exact ih (findLineEnd data nv + 1) r res hr (by omega)
        · simp only [hpt]
          by_cases hc : bstCond searchStart targetTime ts = true
          · rw [if_pos hc, if_pos hc]
            exact ih l (l + (r - l) / 2)
              (findLineStart data (l + (r - l) / 2)) (by omega) (by omega)
          · rw [if_neg hc, if_neg hc]
            have h3 : l + (r - l) / 2 ≤
                findLineEnd data (findLineStart data (l + (r - l) / 2)) :=
              le_findLineEnd_findLineStart data _ (by omega)
            exact ih (findLineEnd data (findLineStart data (l + (r - l) / 2))
              + 1) r res hr (by omega)
      · rw [if_neg hlr, if_neg hlr]

theorem bstLoop_fuel_add (parse : List Char → Option Int) (data : List Char)
    (targetTime : Int) (searchStart : Bool) (l r res : Nat)
    (hr : r ≤ data.length) :
    ∀ (k fuel : Nat), r - l ≤ fuel →
      bstLoop parse data targetTime searchStart fuel l r res =
        bstLoop parse data targetTime searchStart (fuel + k) l r res := by
  intro k
  induction k with
  | zero => intro fuel _; rfl
  | succ n ih =>
      intro fuel hf
      rw [ih fuel hf,
        bstLoop_fuel_stable parse data targetTime searchStart (fuel + n) l r
          res hr (by omega)]
      rfl

/-- C10: the loop of `binarySearchTime` terminates — each iteration either
sets `right` to `mid < right` or advances `left` past the end of the line
containing `mid`, so the window `right - left` strictly shrinks and
`data.length` iterations always suffice: any fuel of at least
`data.length` computes the value `binarySearchTime` returns. -/
theorem binarySearchTime_fuel_sufficient (parse : List Char → Option Int)
    (data : List Char) (targetTime : Int) (searchStart : Bool) (fuel : Nat)
    (h : data.length ≤ fuel) :
    bstLoop parse data targetTime searchStart fuel 0 data.length
        data.length =
      binarySearchTime parse data targetTime searchStart := by
  rw [binarySearchTime,
    show fuel = data.length + (fuel - data.length) from by omega,
    ← bstLoop_fuel_add parse data targetTime searchStart 0 data.length
      data.length (Nat.le_refl _) (fuel - data.length) data.length (by omega),
    ← bstLoop_fuel_add parse data targetTime searchStart 0 data.length
      data.length (Nat.le_refl _) 1 data.length (by omega)]

/-- Witness for C10 on a concrete file: fuel 100 and the searcher's own
fuel agree on a 27-byte file. -/
theorem binarySearchTime_fuel_sufficient_witness :
    (("msg=audit(1700000000:1): a\n" : String).data).length ≤ 100 ∧
    bstLoop (parseTimestamp calParseNone (some 10))
        (("msg=audit(1700000000:1): a\n" : String).data) 0 true 100 0
        (("msg=audit(1700000000:1): a\n" : String).data).length
        (("msg=audit(1700000000:1): a\n" : String).data).length =
      binarySearchTime (parseTimestamp calParseNone (some 10))
        (("msg=audit(1700000000:1): a\n" : String).data) 0 true :=
  ⟨by decide,
    binarySearchTime_fuel_sufficient (parseTimestamp calParseNone (some 10))
      (("msg=audit(1700000000:1): a\n" : String).data) 0 true 100
      (by decide)⟩

/-- The `result` invariant of the loop: `result` is the initial
`data.length` or a recorded valid line start no earlier than the line start
of `right - 1`. -/
def BstInv (parse : List Char → Option Int) (data : List Char)
    (r res : Nat) : Prop :=
  res = data.length ∨
    (ValidStart parse data res ∧ findLineStart data (r - 1) ≤ res)

theorem bstInv_mono_r {parse : List Char → Option Int} {data : List Char}
    {m r res : Nat} (hm : m ≤ r) (h : BstInv parse data r res) :
    BstInv parse data m res := by
  rcases h with h | ⟨hv, hle⟩
  · exact Or.inl h
  · exact Or.inr ⟨hv, Nat.le_trans (findLineStart_mono data (by omega)) hle⟩

theorem bstInv_flsm {parse : List Char → Option Int} {data : List Char}
    {m : Nat} (hv : ValidStart parse data (findLineStart data m)) :
    BstInv parse data m (findLineStart data m) :=
  Or.inr ⟨hv, findLineStart_mono data (by omega)⟩

theorem bstInv_nv {parse : List Char → Option Int} {data : List Char}
    {m nv : Nat} (hv : ValidStart parse data nv) (hnv : m ≤ nv) :
    BstInv parse data m nv :=
  Or.inr ⟨hv, Nat.le_trans (findLineStart_le data (m - 1)) (by omega)⟩

theorem bstInv_le {parse : List Char → Option Int} {data : List Char}
    {m r res : Nat} (h : BstInv parse data r res) (hm : m < r)
    (hr : r ≤ data.length) : findLineStart data m ≤ res := by
  rcases h with h | ⟨_, hle⟩
  · have := findLineStart_le data m
    omega
  · exact Nat.le_trans (findLineStart_mono data (by omega)) hle

/-- An already-closed window returns `result` whatever the fuel. -/
theorem bstLoop_of_ge (parse : List Char → Option Int) (data : List Char)
    (targetTime : Int) (searchStart : Bool) (fuel l r res : Nat)
    (h : r ≤ l) :
    bstLoop parse data targetTime searchStart fuel l r res = res := by
  cases fuel with
  | zero => rfl
  | succ f => rw [bstLoop_step, if_neg (by omega)]

/-- Upper bound: the loop only moves `result` downward. -/
theorem bstLoop_le (parse : List Char → Option Int) (data : List Char)
    (targetTime : Int) (searchStart : Bool) :
    ∀ (fuel l r res : Nat), r ≤ data.length →
      BstInv parse data r res →
      bstLoop parse data targetTime searchStart fuel l r res ≤ res := by
  intro fuel
  induction fuel with
  | zero => intro l r res _ _; exact Nat.le_refl res
  | succ f ih =>
      intro l r res hr hinv
      rw [bstLoop_step]
      by_cases hlr : l < r
      · rw [if_pos hlr]
        have hmr : l + (r - l) / 2 < r := by omega
        rcases hpt : parseTimestampAt parse data
            (findLineStart data (l + (r - l) / 2)) with _ | ts
        · simp only [hpt]
          rcases hnv : findNextValidTimestamp parse data
              (findLineStart data (l + (r - l) / 2)) with _ | nv
          · simp only [hnv]
            exact ih l (l + (r - l) / 2) res (by omega)
              (bstInv_mono_r (by omega) hinv)
          · simp only [hnv]
            rcases fnv_after_parse_fail parse data (l + (r - l) / 2) hpt hnv
              with ⟨hv, hgt, hmin⟩
            rcases hpt2 : parseTimestampAt parse data nv with _ | ts2
            · exact absurd hpt2
                (parseTimestampAt_valid_ne_none parse data nv hv)
            · simp only [hpt2]
              have hm3 : l + (r - l) / 2 ≤
                  findLineEnd data (findLineStart data (l + (r - l) / 2)) :=
                le_findLineEnd_findLineStart data _ (by omega)
              by_cases hc : bstCond searchStart targetTime ts2 = true
              · rw [if_pos hc]
                have h1 : bstLoop parse data targetTime searchStart f l
                    (l + (r - l) / 2) nv ≤ nv :=
                  ih l (l + (r - l) / 2) nv (by omega)
                    (bstInv_nv hv (by omega))
                have h2 : nv ≤ res := by
                  rcases hinv with hN | ⟨hvr, hler⟩
                  · rw [hN]
                    exact Nat.le_of_lt hv.lt_length
                  · exact hmin res hvr
                      (Nat.le_trans (findLineStart_mono data (by omega)) hler)
                omega
              · rw [if_neg hc]
                exact ih (findLineEnd data nv + 1) r res hr hinv
        · simp only [hpt]
          by_cases hc : bstCond searchStart targetTime ts = true
          · rw [if_pos hc]
            have hvm : ValidStart parse data
                (findLineStart data (l + (r - l) / 2)) := by
              have := ((parseTimestampAt_some_iff parse data
                (findLineStart data (l + (r - l) / 2)) ts).mp hpt).1
              rwa [findLineStart_idem] at this
            have h1 := ih l (l + (r - l) / 2)
              (findLineStart data (l + (r - l) / 2)) (by omega)
              (bstInv_flsm hvm)
            have h2 := bstInv_le hinv hmr hr
            omega
          · rw [if_neg hc]
            exact ih (findLineEnd data (findLineStart data (l + (r - l) / 2))
              + 1) r res hr hinv
      · rw [if_neg hlr]

/-- Lower bound: the final result is the initial `result` or a valid line
start at or after the line start of `left`. -/
theorem bstLoop_ge (parse : List Char → Option Int) (data : List Char)
    (targetTime : Int) (searchStart : Bool) :
    ∀ (fuel l r res : Nat), r ≤ data.length →
      (bstLoop parse data targetTime searchStart fuel l r res = res ∨
        (ValidStart parse data
            (bstLoop parse data targetTime searchStart fuel l r res) ∧
          findLineStart data l ≤
            bstLoop parse data targetTime searchStart fuel l r res)) := by
  intro fuel
  induction fuel with
  | zero => intro l r res _; exact Or.inl rfl
  | succ f ih =>
      intro l r res hr
      rw [bstLoop_step]
      by_cases hlr : l < r
      · rw [if_pos hlr]
        have hmr : l + (r - l) / 2 < r := by omega
        rcases hpt : parseTimestampAt parse data
            (findLineStart data (l + (r - l) / 2)) with _ | ts
        · simp only [hpt]
          rcases hnv : findNextValidTimestamp parse data
              (findLineStart data (l + (r - l) / 2)) with _ | nv
          · simp only [hnv]
            exact ih l (l + (r - l) / 2) res (by omega)
          · simp only [hnv]
            rcases fnv_after_parse_fail parse data (l + (r - l) / 2) hpt hnv
              with ⟨hv, hgt, hmin⟩
            rcases hpt2 : parseTimestampAt parse data nv with _ | ts2
            · exact absurd hpt2
                (parseTimestampAt_valid_ne_none parse data nv hv)
            · simp only [hpt2]
              have hm3 : l + (r - l) / 2 ≤
                  findLineEnd data (findLineStart data (l + (r - l) / 2)) :=
                le_findLineEnd_findLineStart data _ (by omega)
              by_cases hc : bstCond searchStart targetTime ts2 = true
              · rw [if_pos hc]
                rcases ih l (l + (r - l) / 2) nv (by omega) with h | ⟨h1, h2⟩
                · rw [h]
                  refine Or.inr ⟨hv, ?_⟩
                  have := findLineStart_le data l
                  omega
                · exact Or.inr ⟨h1, h2⟩
              · rw [if_neg hc]
                rcases ih (findLineEnd data nv + 1) r res hr with h | ⟨h1, h2⟩
                · exact Or.inl h
                · refine Or.inr ⟨h1, Nat.le_trans ?_ h2⟩
                  refine findLineStart_mono data ?_
                  have := findLineEnd_ge data nv (Nat.le_of_lt hv.lt_length)
                  omega
        · simp only [hpt]
          have hvm : ValidStart parse data
              (findLineStart data (l + (r - l) / 2)) := by
            have := ((parseTimestampAt_some_iff parse data
              (findLineStart data (l + (r - l) / 2)) ts).mp hpt).1
            rwa [findLineStart_idem] at this
          by_cases hc : bstCond searchStart targetTime ts = true
          · rw [if_pos hc]
            rcases ih l (l + (r - l) / 2)
                (findLineStart data (l + (r - l) / 2)) (by omega) with
              h | ⟨h1, h2⟩
            · rw [h]
              exact Or.inr ⟨hvm, findLineStart_mono data (by omega)⟩
            · exact Or.inr ⟨h1, h2⟩
          · rw [if_neg hc]
            have hm3 : l + (r - l) / 2 ≤
                findLineEnd data (findLineStart data (l + (r - l) / 2)) :=
              le_findLineEnd_findLineStart data _ (by omega)
            rcases ih (findLineEnd data (findLineStart data
                (l + (r - l) / 2)) + 1) r res hr with h | ⟨h1, h2⟩
            · exact Or.inl h
            · exact Or.inr ⟨h1, Nat.le_trans
                (findLineStart_mono data (by omega)) h2⟩
      · rw [if_neg hlr]
        exact Or.inl rfl

/-- Coupled-run monotonicity: a pointwise weaker search condition never
yields a larger boundary.  The two runs share every probe until the first
divergence, where the weak run records the probe's line and the strong run
moves past it; the recorded value bounds the weak run from above and the
strong run from below. -/
theorem bstLoop_mono (parse : List Char → Option Int) (data : List Char)
    (t1 t2 : Int) (s1 s2 : Bool)
    (himp : ∀ ts : Int, bstCond s1 t1 ts = true → bstCond s2 t2 ts = true) :
    ∀ (fuel l r res : Nat), r ≤ data.length → BstInv parse data r res →
      bstLoop parse data t2 s2 fuel l r res ≤
        bstLoop parse data t1 s1 fuel l r res := by
  intro fuel
  induction fuel with
  | zero => intro l r res _ _; exact Nat.le_refl res
  | succ f ih =>
      intro l r res hr hinv
      rw [bstLoop_step, bstLoop_step]
      by_cases hlr : l < r
      · rw [if_pos hlr, if_pos hlr]
        have hmr : l + (r - l) / 2 < r := by omega
        rcases hpt : parseTimestampAt parse data
            (findLineStart data (l + (r - l) / 2)) with _ | ts
        · simp only [hpt]
          rcases hnv : findNextValidTimestamp parse data
              (findLineStart data (l + (r - l) / 2)) with _ | nv
          · simp only [hnv]
            exact ih l (l + (r - l) / 2) res (by omega)
              (bstInv_mono_r (by omega) hinv)
          · simp only [hnv]
            rcases fnv_after_parse_fail parse data (l + (r - l) / 2) hpt hnv
              with ⟨hv, hgt, hmin⟩
            rcases hpt2 : parseTimestampAt parse data nv with _ | ts2
            · exact absurd hpt2
                (parseTimestampAt_valid_ne_none parse data nv hv)
            · simp only [hpt2]
              have hm3 : l + (r - l) / 2 ≤
                  findLineEnd data (findLineStart data (l + (r - l) / 2)) :=
                le_findLineEnd_findLineStart data _ (by omega)
              have hnvN : nv < data.length := hv.lt_length
              by_cases hc1 : bstCond s1 t1 ts2 = true
              · rw [if_pos hc1, if_pos (himp ts2 hc1)]
                exact ih l (l + (r - l) / 2) nv (by omega)
                  (bstInv_nv hv (by omega))
              · rw [if_neg hc1]
                by_cases hc2 : bstCond s2 t2 ts2 = true
                · rw [if_pos hc2]
                  -- Weak run records `nv` and goes left; strong run skips
                  -- past the line at `nv`.
                  have hQ : bstLoop parse data t2 s2 f l (l + (r - l) / 2)
                      nv ≤ nv :=
                    bstLoop_le parse data t2 s2 f l (l + (r - l) / 2) nv
                      (by omega) (bstInv_nv hv (by omega))
                  have hres : nv ≤ res := by
                    rcases hinv with hN | ⟨hvr, hler⟩
                    · omega
                    · exact hmin res hvr (Nat.le_trans
                        (findLineStart_mono data (by omega)) hler)
                  by_cases hend : findLineEnd data nv + 1 ≤ r
                  · rcases bstLoop_ge parse data t1 s1 f
                        (findLineEnd data nv + 1) r res hr with h | ⟨_, h2⟩
                    · omega
                    · have hnl : findLineEnd data nv < data.length := by
                        have := findLineEnd_ge data nv (by omega)
                        omega
                      have : findLineStart data (findLineEnd data nv + 1) =
                          findLineEnd data nv + 1 :=
                        findLineStart_succ_newline data _
                          (findLineEnd_newline data nv hnl)
                      rw [this] at h2
                      have := findLineEnd_ge data nv (by omega)
                      omega
                  · rw [bstLoop_of_ge parse data t1 s1 f _ r res (by omega)]
                    omega
                · rw [if_neg hc2]
                  exact ih (findLineEnd data nv + 1) r res hr hinv
        · simp only [hpt]
          have hvm : ValidStart parse data
              (findLineStart data (l + (r - l) / 2)) := by
            have := ((parseTimestampAt_some_iff parse data
              (findLineStart data (l + (r - l) / 2)) ts).mp hpt).1
            rwa [findLineStart_idem] at this
          have hm3 : l + (r - l) / 2 ≤
              findLineEnd data (findLineStart data (l + (r - l) / 2)) :=
            le_findLineEnd_findLineStart data _ (by omega)
          by_cases hc1 : bstCond s1 t1 ts = true
          · rw [if_pos hc1, if_pos (himp ts hc1)]
            exact ih l (l + (r - l) / 2)
              (findLineStart data (l + (r - l) / 2)) (by omega)
              (bstInv_flsm hvm)
          · rw [if_neg hc1]
            by_cases hc2 : bstCond s2 t2 ts = true
            · rw [if_pos hc2]
              have hQ : bstLoop parse data t2 s2 f l (l + (r - l) / 2)
                  (findLineStart data (l + (r - l) / 2)) ≤
                  findLineStart data (l + (r - l) / 2) :=
                bstLoop_le parse data t2 s2 f l (l + (r - l) / 2)
                  (findLineStart data (l + (r - l) / 2)) (by omega)
                  (bstInv_flsm hvm)
              have hres := bstInv_le hinv hmr hr
              have hflsm := findLineStart_le data (l + (r - l) / 2)
              by_cases hend : findLineEnd data
                  (findLineStart data (l + (r - l) / 2)) + 1 ≤ r
              · rcases bstLoop_ge parse data t1 s1 f
                    (findLineEnd data (findLineStart data
                      (l + (r - l) / 2)) + 1) r res hr with h | ⟨_, h2⟩
                · omega
                · have hnl : findLineEnd data (findLineStart data
                      (l + (r - l) / 2)) < data.length := by omega
                  have heq : findLineStart data (findLineEnd data
                      (findLineStart data (l + (r - l) / 2)) + 1) =
                      findLineEnd data (findLineStart data
                        (l + (r - l) / 2)) + 1 :=
                    findLineStart_succ_newline data _
                      (findLineEnd_newline data _ hnl)
                  rw [heq] at h2
                  omega
              · rw [bstLoop_of_ge parse data t1 s1 f _ r res (by omega)]
                omega
            · rw [if_neg hc2]
              exact ih (findLineEnd data (findLineStart data
                (l + (r - l) / 2)) + 1) r res hr hinv
      · rw [if_neg hlr, if_neg hlr]

/-! ## Characterisation of `binarySearchTime` on monotone data -/

/-- A position satisfying the search condition: a valid line start whose
parsed timestamp passes `cond`. -/
def CondStart (parse : List Char → Option Int) (data : List Char)
    (cond : Int → Bool) (s : Nat) : Prop :=
  ValidStart parse data s ∧
    ∃ v, lineVal parse data s = some v ∧ cond v = true

/-- Both search conditions (`≥ target` and `> target`) are upward
closed. -/
theorem bstCond_mono (ss : Bool) (t v w : Int) (hvw : v ≤ w)
    (h : bstCond ss t v = true) : bstCond ss t w = true := by
  cases ss <;> simp [bstCond] at h ⊢ <;> omega

/-- On value-monotone data, every satisfying position lies strictly past
the whole line of any valid position whose timestamp fails `cond`. -/
theorem condStart_past (parse : List Char → Option Int) (data : List Char)
    (cond : Int → Bool)
    (hmono : ∀ s1 s2 v1 v2, ValidStart parse data s1 →
      ValidStart parse data s2 → s1 ≤ s2 → lineVal parse data s1 = some v1 →
      lineVal parse data s2 = some v2 → v1 ≤ v2)
    (hcond : ∀ v w : Int, v ≤ w → cond v = true → cond w = true)
    (e : Nat) (ts : Int) (hve : ValidStart parse data e)
    (hlve : lineVal parse data e = some ts) (hcf : ¬ cond ts = true) :
    ∀ s, CondStart parse data cond s → findLineEnd data e < s := by
  rintro s ⟨hvs, v, hlvs, hcv⟩
  by_contra hle
  push_neg at hle
  by_cases hse : s ≤ e
  · exact hcf (hcond v ts (hmono s e v ts hvs hve hse hlvs hlve) hcv)
  · push_neg at hse
    refine valid_start_not_in_line data e s hvs.1 ?_ ?_
    · rw [hve.1]
      omega
    · rw [hve.1]
      omega

/-- The binary search over value-monotone data computes the least
satisfying position (`data.length` when there is none), given the loop
invariants: no satisfying position before `left`; once `right` has passed
the answer the answer has been recorded in `result`; `result` is initial
or satisfying. -/
theorem bstLoop_char (parse : List Char → Option Int) (data : List Char)
    (targetTime : Int) (searchStart : Bool)
    (hmono : ∀ s1 s2 v1 v2, ValidStart parse data s1 →
      ValidStart parse data s2 → s1 ≤ s2 → lineVal parse data s1 = some v1 →
      lineVal parse data s2 = some v2 → v1 ≤ v2)
    (a : Nat)
    (haval : a = data.length ∨
      CondStart parse data (bstCond searchStart targetTime) a)
    (hamin : ∀ s, CondStart parse data (bstCond searchStart targetTime) s →
      a ≤ s) :
    ∀ (fuel l r res : Nat), r ≤ data.length → r - l ≤ fuel →
      (∀ s, CondStart parse data (bstCond searchStart targetTime) s →
        l ≤ s) →
      (r ≤ a → res = a) →
      (res = data.length ∨
        CondStart parse data (bstCond searchStart targetTime) res) →
      bstLoop parse data targetTime searchStart fuel l r res = a := by
  have haN : a ≤ data.length := by
    rcases haval with h | h
    · omega
    · exact Nat.le_of_lt h.1.lt_length
  have hexit : ∀ (l r res : Nat), r ≤ data.length → r ≤ l →
      (∀ s, CondStart parse data (bstCond searchStart targetTime) s →
        l ≤ s) →
      (r ≤ a → res = a) → res = a := by
    intro l r res hrN hrl hI1 hI4
    refine hI4 ?_
    rcases haval with h | h
    · omega
    · exact Nat.le_trans hrl (hI1 a h)
  have hI2res : ∀ res, (res = data.length ∨
      CondStart parse data (bstCond searchStart targetTime) res) →
      a = data.length → res = a := by
    intro res h2 haNeq
    rcases h2 with h | h
    · omega
    · have := hamin res h
      have := h.1.lt_length
      omega
  intro fuel
  induction fuel with
  | zero =>
      intro l r res hr hf hI1 hI4 hI2
      exact hexit l r res hr (by omega) hI1 hI4
  | succ f ih =>
      intro l r res hr hf hI1 hI4 hI2
      rw [bstLoop_step]
      by_cases hlr : l < r
      · rw [if_pos hlr]
        have hmr : l + (r - l) / 2 < r := by omega
        have hml : l ≤ l + (r - l) / 2 := by omega
        rcases hpt : parseTimestampAt parse data
            (findLineStart data (l + (r - l) / 2)) with _ | ts
        · -- the probed line does not parse
          simp only [hpt]
          have hnotvm : ¬ ValidStart parse data
              (findLineStart data (l + (r - l) / 2)) := by
            rw [parseTimestampAt_none_iff] at hpt
            rwa [findLineStart_idem] at hpt
          rcases hnv : findNextValidTimestamp parse data
              (findLineStart data (l + (r - l) / 2)) with _ | nv
          · -- no valid start remains: the answer is `data.length`
            simp only [hnv]
            have hnone := fnv_none parse data
              (findLineStart data (l + (r - l) / 2))
              (findLineStart_idem data _).symm hnv
            refine ih l (l + (r - l) / 2) res (by omega) (by omega) hI1
              ?_ hI2
            intro hma
            have haNeq : a = data.length := by
              rcases haval with h | h
              · exact h
              · exact (hnone a h.1
                  (Nat.le_trans (findLineStart_le data _) (by omega))).elim
            exact hI2res res hI2 haNeq
          · simp only [hnv]
            rcases fnv_after_parse_fail parse data (l + (r - l) / 2) hpt hnv
              with ⟨hv, hgt, hmin⟩
            rcases hpt2 : parseTimestampAt parse data nv with _ | ts2
            · exact absurd hpt2
                (parseTimestampAt_valid_ne_none parse data nv hv)
            · simp only [hpt2]
              have hlv2 : lineVal parse data nv = some ts2 := by
                rw [← parseTimestampAt_of_valid parse data nv hv]
                exact hpt2
              have hm3 : l + (r - l) / 2 ≤
                  findLineEnd data (findLineStart data (l + (r - l) / 2)) :=
                le_findLineEnd_findLineStart data _ (by omega)
              by_cases hc : bstCond searchStart targetTime ts2 = true
              · rw [if_pos hc]
                have hcs : CondStart parse data
                    (bstCond searchStart targetTime) nv :=
                  ⟨hv, ts2, hlv2, hc⟩
                refine ih l (l + (r - l) / 2) nv (by omega) (by omega) hI1
                  ?_ (Or.inr hcs)
                intro hma
                have h1 : a ≤ nv := hamin nv hcs
                have h2 : nv ≤ a := by
                  rcases haval with h | h
                  · have := hv.lt_length
                    omega
                  · exact hmin a h.1 (Nat.le_trans (findLineStart_le data _)
                      (by omega))
                omega
              · rw [if_neg hc]
                have hpast := condStart_past parse data
                  (bstCond searchStart targetTime) hmono
                  (bstCond_mono searchStart targetTime) nv ts2 hv hlv2 hc
                refine ih (findLineEnd data nv + 1) r res hr ?_ ?_ hI4 hI2
                · have h4 : nv ≤ findLineEnd data nv :=
                    findLineEnd_ge data nv (Nat.le_of_lt hv.lt_length)
                  omega
                · intro s hs
                  have := hpast s hs
                  omega
        · -- the probed line parses to `ts`
          simp only [hpt]
          have hvm : ValidStart parse data
              (findLineStart data (l + (r - l) / 2)) := by
            have := ((parseTimestampAt_some_iff parse data
              (findLineStart data (l + (r - l) / 2)) ts).mp hpt).1
            rwa [findLineStart_idem] at this
          have hlvm : lineVal parse data
              (findLineStart data (l + (r - l) / 2)) = some ts := by
            have := ((parseTimestampAt_some_iff parse data
              (findLineStart data (l + (r - l) / 2)) ts).mp hpt).2
            rwa [findLineStart_idem] at this
          have hm3 : l + (r - l) / 2 ≤
              findLineEnd data (findLineStart data (l + (r - l) / 2)) :=
            le_findLineEnd_findLineStart data _ (by omega)
          by_cases hc : bstCond searchStart targetTime ts = true
          · rw [if_pos hc]
            have hcs : CondStart parse data
                (bstCond searchStart targetTime)
                (findLineStart data (l + (r - l) / 2)) :=
              ⟨hvm, ts, hlvm, hc⟩
            refine ih l (l + (r - l) / 2)
              (findLineStart data (l + (r - l) / 2)) (by omega) (by omega)
              hI1 ?_ (Or.inr hcs)
            intro hma
            have h1 : a ≤ findLineStart data (l + (r - l) / 2) :=
              hamin _ hcs
            have h2 := findLineStart_le data (l + (r - l) / 2)
            omega
          · rw [if_neg hc]
            have hpast := condStart_past parse data
              (bstCond searchStart targetTime) hmono
              (bstCond_mono searchStart targetTime)
              (findLineStart data (l + (r - l) / 2)) ts hvm hlvm hc
            refine ih (findLineEnd data (findLineStart data
              (l + (r - l) / 2)) + 1) r res hr (by omega) ?_ hI4 hI2
            intro s hs
            have := hpast s hs
            omega
      · rw [if_neg hlr]
        exact hexit l r res hr (by omega) hI1 hI4

/-- On value-monotone data, `binarySearchTime` returns the least valid
line start whose timestamp satisfies the search condition, or the file
size when none does. -/
theorem binarySearchTime_char (parse : List Char → Option Int)
    (data : List Char) (targetTime : Int) (searchStart : Bool)
    (hmono : ∀ s1 s2 v1 v2, ValidStart parse data s1 →
      ValidStart parse data s2 → s1 ≤ s2 → lineVal parse data s1 = some v1 →
      lineVal parse data s2 = some v2 → v1 ≤ v2)
    (a : Nat)
    (haval : a = data.length ∨
      CondStart parse data (bstCond searchStart targetTime) a)
    (hamin : ∀ s, CondStart parse data (bstCond searchStart targetTime) s →
      a ≤ s) :
    binarySearchTime parse data targetTime searchStart = a := by
  have haN : a ≤ data.length := by
    rcases haval with h | h
    · omega
    · exact Nat.le_of_lt h.1.lt_length
  refine bstLoop_char parse data targetTime searchStart hmono a haval hamin
    (data.length + 1) 0 data.length data.length (Nat.le_refl _) (by omega)
    (fun s _ => Nat.zero_le s) (fun h => by omega) (Or.inl rfl)

/-! ## C8: `BinarySearchTimeRange` on an inverted range -/

/-- C8: for an inverted range (`start > end`) `BinarySearchTimeRange`
returns byte count 0 on every mapped file; in general it returns
`endOffset - startOffset` when `endOffset > startOffset` and 0
otherwise. -/
theorem binarySearchTimeRange_inverted (parse : List Char → Option Int)
    (data : List Char) (startTime endTime : Int)
    (hinv : endTime < startTime) :
    binarySearchTimeRange parse data startTime endTime = 0 ∧
    ∀ (s e : Int),
      binarySearchTimeRange parse data s e =
        if data.length = 0 then 0
        else
          if binarySearchTime parse data e false >
              binarySearchTime parse data s true then
            binarySearchTime parse data e false -
              binarySearchTime parse data s true
          else 0 := by
  constructor
  · rw [binarySearchTimeRange]
    by_cases h0 : data.length = 0
    · rw [if_pos h0]
    · rw [if_neg h0]
      have hle : binarySearchTime parse data endTime false ≤
          binarySearchTime parse data startTime true := by
        rw [binarySearchTime, binarySearchTime]
        refine bstLoop_mono parse data startTime endTime true false ?_
          (data.length + 1) 0 data.length data.length (Nat.le_refl _)
          (Or.inl rfl)
        intro ts h
        simp [bstCond] at h ⊢
        omega
      rw [if_neg (by omega)]
  · intro s e
    rfl

/-- Witness for C8 on a concrete one-line file and the inverted range
`[5, 3]`. -/
theorem binarySearchTimeRange_inverted_witness :
    ((3 : Int) < 5) ∧
    (binarySearchTimeRange (parseTimestamp calParseNone (some 10))
        (("msg=audit(1700000000:1): a\n" : String).data) 5 3 = 0 ∧
    ∀ (s e : Int),
      binarySearchTimeRange (parseTimestamp calParseNone (some 10))
          (("msg=audit(1700000000:1): a\n" : String).data) s e =
        if (("msg=audit(1700000000:1): a\n" : String).data).length = 0 then 0
        else
          if binarySearchTime (parseTimestamp calParseNone (some 10))
              (("msg=audit(1700000000:1): a\n" : String).data) e false >
              binarySearchTime (parseTimestamp calParseNone (some 10))
                (("msg=audit(1700000000:1): a\n" : String).data) s true then
            binarySearchTime (parseTimestamp calParseNone (some 10))
                (("msg=audit(1700000000:1): a\n" : String).data) e false -
              binarySearchTime (parseTimestamp calParseNone (some 10))
                (("msg=audit(1700000000:1): a\n" : String).data) s true
          else 0) :=
  ⟨by decide, binarySearchTimeRange_inverted
    (parseTimestamp calParseNone (some 10))
    (("msg=audit(1700000000:1): a\n" : String).data) 5 3 (by decide)⟩

/-! ## C2: `createTimeBins` partitions the range -/

/-- Closed form of the `createTimeBins` loop. -/
theorem createTimeBinsGo_eq (d e : Int) (k : Nat) (cur : Int) :
    createTimeBinsGo d e k cur =
      (List.range k).map (fun i =>
        ⟨cur + (i : Int) * d,
          if i = k - 1 then e else cur + ((i : Int) + 1) * d⟩) := by
  induction k generalizing cur with
  | zero => simp [createTimeBinsGo]
  | succ k ih =>
      rw [createTimeBinsGo]
      by_cases hk : k = 0
      · subst hk
        simp [List.range_succ]
      · rw [if_neg hk, ih (cur + d), List.range_succ_eq_map, List.map_cons,
          List.map_map]
        refine congrArg₂ _ ?_ (List.map_congr_left fun i _ => ?_)
        · have h : ¬((0 : Nat) = k) := fun hc => hk hc.symm
          simp [h]
        · simp only [Function.comp_apply, Nat.succ_eq_add_one,
            Nat.add_sub_cancel]
          by_cases h : i + 1 = k
          · rw [if_pos h, if_pos (by omega : i = k - 1)]
            refine congrArg₂ _ ?_ rfl
            push_cast; ring
          · rw [if_neg h, if_neg (by omega : ¬ i = k - 1)]
            refine congrArg₂ _ ?_ ?_ <;> (push_cast; ring)

theorem map_range_getD {α : Type} (f : Nat → α) (k i : Nat) (hi : i < k)
    (dflt : α) : ((List.range k).map f).getD i dflt = f i := by
  rw [List.getD_eq_getElem?_getD]
  rw [List.getElem?_map, List.getElem?_range hi]
  rfl

/-- The bin duration is non-negative on a well-formed range, and the pinned
final bin still starts no later than the range end. -/
theorem binDuration_nonneg (s e : Int) (n : Nat) (hr : s ≤ e) :
    0 ≤ Int.tdiv (e - s) (n : Int) :=
  Int.tdiv_nonneg (by omega) (Int.natCast_nonneg n)

theorem last_bin_start_le (s e : Int) (n : Nat) (hr : s ≤ e) (hn : 1 ≤ n) :
    s + ((n : Int) - 1) * Int.tdiv (e - s) (n : Int) ≤ e := by
  have hd0 : 0 ≤ Int.tdiv (e - s) (n : Int) := binDuration_nonneg s e n hr
  have hne : (n : Int) ≠ 0 := by exact_mod_cast Nat.one_le_iff_ne_zero.mp hn
  have hmul : (n : Int) * Int.tdiv (e - s) (n : Int) ≤ e - s := by
    calc (n : Int) * Int.tdiv (e - s) (n : Int)
        = Int.tdiv (e - s) (n : Int) * (n : Int) := by ring
      _ ≤ e - s := by
          rw [Int.tdiv_eq_ediv (by omega) (Int.natCast_nonneg n)]
          exact Int.ediv_mul_le (e - s) hne
  nlinarith [hd0, hmul]

/-- C2: for every `TimeRange r` with `r.start ≤ r.end` and every bin count
`n ≥ 1`, `createTimeBins r n` returns exactly `n` bins with
`bins[0].start = r.start`, `bins[n-1].end = r.end`,
`bins[i].end = bins[i+1].start` for every `i < n - 1`, and each bin's start
is at most its end. -/
theorem createTimeBins_partitions (r : TimeRange) (n : Nat)
    (hr : r.start ≤ r.«end») (hn : 1 ≤ n) :
    (createTimeBins r n).length = n ∧
    ((createTimeBins r n).getD 0 ⟨0, 0⟩).start = r.start ∧
    ((createTimeBins r n).getD (n - 1) ⟨0, 0⟩).«end» = r.«end» ∧
    (∀ i, i + 1 < n →
      ((createTimeBins r n).getD i ⟨0, 0⟩).«end» =
        ((createTimeBins r n).getD (i + 1) ⟨0, 0⟩).start) ∧
    (∀ i, i < n →
      ((createTimeBins r n).getD i ⟨0, 0⟩).start ≤
        ((createTimeBins r n).getD i ⟨0, 0⟩).«end») := by
  have hd0 : 0 ≤ Int.tdiv (r.«end» - r.start) (n : Int) :=
    binDuration_nonneg r.start r.«end» n hr
  rw [createTimeBins, createTimeBinsGo_eq]
  set d := Int.tdiv (r.«end» - r.start) (n : Int) with hd
  refine ⟨by simp, ?_, ?_, ?_, ?_⟩
  · rw [map_range_getD _ n 0 (by omega)]
    simp
  · rw [map_range_getD _ n (n - 1) (by omega)]
    simp
  · intro i hi
    rw [map_range_getD _ n i (by omega), map_range_getD _ n (i + 1) (by omega)]
    have : ¬(i = n - 1) := by omega
    simp only [this, if_false]
    push_cast; ring
  · intro i hi
    rw [map_range_getD _ n i hi]
    by_cases h : i = n - 1
    · simp only [h, if_true]
      have := last_bin_start_le r.start r.«end» n hr hn
      have hcast : ((n - 1 : Nat) : Int) = (n : Int) - 1 := by
        push_cast [hn]; ring
      simp only [hcast]
      exact this
    · simp only [h, if_false]
      nlinarith [hd0]

/-! ## The selection loop of `DetectBestPattern` -/

/-- Characterisation of the selection fold from an arbitrary accumulator:
either no entry beats the running maximum and the accumulator survives, or
the result is the first entry `i` of the list attaining the maximal count,
with every entry before it strictly smaller. -/
theorem selectBest_foldl (counts : Nat → Nat) :
    ∀ (l : List Nat) (b : Option Nat) (m : Nat),
      (l.foldl (fun bm i => if counts i > bm.2 then (some i, counts i) else bm)
          (b, m) = (b, m) ∧ ∀ j ∈ l, counts j ≤ m) ∨
      (∃ i pre post, l = pre ++ i :: post ∧
        l.foldl (fun bm i => if counts i > bm.2 then (some i, counts i) else bm)
            (b, m) = (some i, counts i) ∧
        m < counts i ∧ (∀ j ∈ pre, counts j < counts i) ∧
        (∀ j ∈ l, counts j ≤ counts i))
  | [], b, m => Or.inl ⟨rfl, by simp⟩
  | x :: rest, b, m => by
      rw [List.foldl_cons]
      by_cases hx : counts x > m
      · have hstep :
            (if counts x > (b, m).2 then (some x, counts x) else (b, m)) =
              (some x, counts x) := by simp [hx]
        rw [hstep]
        rcases selectBest_foldl counts rest (some x) (counts x) with
          ⟨heq, hub⟩ | ⟨i, pre, post, hsplit, heq, hlt, hpre, hub⟩
        · refine Or.inr ⟨x, [], rest, rfl, heq, hx, by simp, ?_⟩
          intro j hj
          rcases List.mem_cons.mp hj with h | h
          · exact h ▸ Nat.le_refl _
          · exact hub j h
        · refine Or.inr ⟨i, x :: pre, post, by rw [hsplit, List.cons_append], heq,
            Nat.lt_trans hx hlt, ?_, ?_⟩
          · intro j hj
            rcases List.mem_cons.mp hj with h | h
            · exact h ▸ hlt
            · exact hpre j h
          · intro j hj
            rcases List.mem_cons.mp hj with h | h
            · exact h ▸ Nat.le_of_lt hlt
            · exact hub j h
      · have hstep :
            (if counts x > (b, m).2 then (some x, counts x) else (b, m)) =
              (b, m) := by simp [hx]
        rw [hstep]
        rcases selectBest_foldl counts rest b m with
          ⟨heq, hub⟩ | ⟨i, pre, post, hsplit, heq, hlt, hpre, hub⟩
        · refine Or.inl ⟨heq, ?_⟩
          intro j hj
          rcases List.mem_cons.mp hj with h | h
          · exact h ▸ Nat.le_of_not_lt hx
          · exact hub j h
        · refine Or.inr ⟨i, x :: pre, post, by rw [hsplit, List.cons_append], heq, hlt, ?_, ?_⟩
          · intro j hj
            rcases List.mem_cons.mp hj with h | h
            · exact h ▸ Nat.lt_of_le_of_lt (Nat.le_of_not_lt hx) hlt
            · exact hpre j h
          · intro j hj
            rcases List.mem_cons.mp hj with h | h
            · exact h ▸ Nat.le_of_lt (Nat.lt_of_le_of_lt (Nat.le_of_not_lt hx) hlt)
            · exact hub j h

/-- The selection loop picks `none` exactly when every map entry is zero
(which never happens for real keys), and otherwise the first entry of the
iteration order attaining the maximal count. -/
theorem selectBest_spec (counts : Nat → Nat) (order : List Nat) :
    (selectBest counts order = (none, 0) ∧ ∀ j ∈ order, counts j = 0) ∨
    (∃ i pre post, order = pre ++ i :: post ∧
      selectBest counts order = (some i, counts i) ∧ 0 < counts i ∧
      (∀ j ∈ pre, counts j < counts i) ∧
      (∀ j ∈ order, counts j ≤ counts i)) := by
  rcases selectBest_foldl counts order none 0 with ⟨heq, hub⟩ |
    ⟨i, pre, post, hsplit, heq, hlt, hpre, hub⟩
  · exact Or.inl ⟨heq, fun j hj => Nat.le_zero.mp (hub j hj)⟩
  · exact Or.inr ⟨i, pre, post, hsplit, heq, hlt, hpre, hub⟩

/-- Patterns beyond the 22 compiled ones match nothing (the library is
finite); hence `countMatches` vanishes there and quantifiers over all
pattern indices are meaningful. -/
theorem baseMatch_of_ge (n : Nat) (l : List Char) :
    baseMatch (n + 11) l = false := rfl

theorem matchSomewhere_false (m : List Char → Bool)
    (hm : ∀ l, m l = false) : ∀ l, matchSomewhere m l = false
  | [] => by rw [matchSomewhere, hm]
  | c :: rest => by
      rw [matchSomewhere, hm, matchSomewhere_false m hm rest]
      rfl

theorem matchesLine_of_ge (i : Nat) (hi : patternCount ≤ i) (l : List Char) :
    matchesLine i l = false := by
  have h11 : ¬ i < 11 := by
    rw [patternCount] at hi; omega
  rw [matchesLine, if_neg h11]
  have : i - 11 = (i - 22) + 11 := by rw [patternCount] at hi; omega
  rw [this]
  exact matchSomewhere_false _ (fun l => baseMatch_of_ge (i - 22) l) l

theorem countMatches_of_ge (i : Nat) (hi : patternCount ≤ i)
    (content : List Char) : countMatches i content = 0 := by
  rw [countMatches]
  rw [List.filter_eq_nil_iff.mpr]
  · rfl
  · intro l _
    rw [matchesLine_of_ge i hi l]
    exact Bool.false_ne_true

/-- Membership in `detectKeys` is exactly a positive match count. -/
theorem mem_detectKeys (content : List Char) (i : Nat) :
    i ∈ detectKeys content ↔ 0 < countMatches i content := by
  rw [detectKeys, List.mem_filter, List.mem_range]
  constructor
  · intro ⟨_, h⟩
    exact of_decide_eq_true h
  · intro h
    refine ⟨?_, decide_eq_true h⟩
    by_contra hge
    rw [countMatches_of_ge i (Nat.le_of_not_lt hge) content] at h
    exact Nat.lt_irrefl 0 h

/-! ## C4 and C5: what `DetectBestPattern` selects -/

theorem countMatches_le_sample (i : Nat) (content : List Char) :
    countMatches i content ≤ (sampleLines content).length :=
  List.length_filter_le _ _

/-- C5 (amended): under any admissible map iteration order, the selected
pattern attains the maximal match count over the whole library, and it is
the first key of the iteration order whose count strictly exceeds every
earlier key's count; when several patterns tie for the maximum, which of
them is selected depends on the unspecified iteration order, not on the
library index. -/
theorem detectBestPattern_argmax (calParse : CalParse) (order : List Nat)
    (content : List Char) (h : DetectOrder content order) :
    (detectBestPattern calParse order content = ⟨none, 0, none, 0⟩ ∧
      ∀ i, countMatches i content = 0) ∨
    (∃ i pre post, order = pre ++ i :: post ∧
      detectBestPattern calParse order content =
        ⟨some i, countMatches i content, firstTimestamp calParse i content,
          mkRat (countMatches i content : Int) (sampleLines content).length⟩ ∧
      0 < countMatches i content ∧
      (∀ j ∈ pre, countMatches j content < countMatches i content) ∧
      (∀ j, countMatches j content ≤ countMatches i content)) := by
  rcases selectBest_spec (fun i => countMatches i content) order with
    ⟨heq, hz⟩ | ⟨i, pre, post, hsplit, heq, hpos, hpre, hub⟩
  · left
    constructor
    · rw [detectBestPattern, heq]
    · intro i
      rcases Nat.eq_zero_or_pos (countMatches i content) with h0 | h0
      · exact h0
      · exact hz i (h.mem_iff.mpr ((mem_detectKeys content i).mpr h0)) ▸ rfl
  · right
    refine ⟨i, pre, post, hsplit, ?_, hpos, hpre, ?_⟩
    · rw [detectBestPattern, heq]
    · intro j
      rcases Nat.eq_zero_or_pos (countMatches j content) with h0 | h0
      · omega
      · exact hub j (h.mem_iff.mpr ((mem_detectKeys content j).mpr h0))

/-- C4 (amended): two calls of `DetectBestPattern` on the same unmodified
file — that is, two admissible iterations of the same `patternMatches` map —
always agree on `matchCount` and `confidence`; they agree on the whole
`PatternDetectionResult` whenever the maximal-count pattern is unique, but
the selected `bestPattern` (and with it `sampleTime`) may differ between
the two calls when several patterns tie for the maximal count. -/
theorem detectBestPattern_matchCount_confidence_deterministic
    (calParse : CalParse) (content : List Char) (order1 order2 : List Nat)
    (h1 : DetectOrder content order1) (h2 : DetectOrder content order2) :
    (detectBestPattern calParse order1 content).matchCount =
      (detectBestPattern calParse order2 content).matchCount ∧
    (detectBestPattern calParse order1 content).confidence =
      (detectBestPattern calParse order2 content).confidence ∧
    ((∀ i j, (∀ k, countMatches k content ≤ countMatches i content) →
        (∀ k, countMatches k content ≤ countMatches j content) →
        0 < countMatches i content → 0 < countMatches j content → i = j) →
      detectBestPattern calParse order1 content =
        detectBestPattern calParse order2 content) := by
  rcases detectBestPattern_argmax calParse order1 content h1 with
    ⟨hr1, hz1⟩ | ⟨i1, pre1, post1, hs1, hr1, hp1, hpre1, hub1⟩ <;>
    rcases detectBestPattern_argmax calParse order2 content h2 with
      ⟨hr2, hz2⟩ | ⟨i2, pre2, post2, hs2, hr2, hp2, hpre2, hub2⟩
  · rw [hr1, hr2]
    exact ⟨rfl, rfl, fun _ => rfl⟩
  · exfalso
    rw [hz1 i2] at hp2
    exact Nat.lt_irrefl 0 hp2
  · exfalso
    rw [hz2 i1] at hp1
    exact Nat.lt_irrefl 0 hp1
  · have hmc : countMatches i1 content = countMatches i2 content :=
      Nat.le_antisymm (hub2 i1) (hub1 i2)
    rw [hr1, hr2]
    refine ⟨by simpa using hmc, by simp [hmc], fun huniq => ?_⟩
    have : i1 = i2 := huniq i1 i2 hub1 hub2 hp1 hp2
    rw [this]

/-- Witness for the amended C5 on a concrete file and iteration order. -/
theorem detectBestPattern_argmax_witness :
    DetectOrder (("msg=audit(1700000123:1): go\n" : String).data) [10, 21] ∧
    ((detectBestPattern calParseNone [10, 21]
        (("msg=audit(1700000123:1): go\n" : String).data) =
          ⟨none, 0, none, 0⟩ ∧
      ∀ i, countMatches i (("msg=audit(1700000123:1): go\n" : String).data)
        = 0) ∨
    (∃ i pre post, ([10, 21] : List Nat) = pre ++ i :: post ∧
      detectBestPattern calParseNone [10, 21]
        (("msg=audit(1700000123:1): go\n" : String).data) =
        ⟨some i,
          countMatches i (("msg=audit(1700000123:1): go\n" : String).data),
          firstTimestamp calParseNone i
            (("msg=audit(1700000123:1): go\n" : String).data),
          mkRat (countMatches i
              (("msg=audit(1700000123:1): go\n" : String).data) : Int)
            (sampleLines
              (("msg=audit(1700000123:1): go\n" : String).data)).length⟩ ∧
      0 < countMatches i (("msg=audit(1700000123:1): go\n" : String).data) ∧
      (∀ j ∈ pre, countMatches j
          (("msg=audit(1700000123:1): go\n" : String).data) <
        countMatches i (("msg=audit(1700000123:1): go\n" : String).data)) ∧
      (∀ j, countMatches j
          (("msg=audit(1700000123:1): go\n" : String).data) ≤
        countMatches i
          (("msg=audit(1700000123:1): go\n" : String).data)))) :=
  ⟨by decide, detectBestPattern_argmax calParseNone [10, 21]
    (("msg=audit(1700000123:1): go\n" : String).data) (by decide)⟩

/-- Witness for the amended C4 on a concrete file and two iteration
orders. -/
theorem detectBestPattern_deterministic_witness :
    DetectOrder (("msg=audit(1700000777:1): go\n" : String).data) [10, 21] ∧
    DetectOrder (("msg=audit(1700000777:1): go\n" : String).data) [21, 10] ∧
    ((detectBestPattern calParseNone [10, 21]
        (("msg=audit(1700000777:1): go\n" : String).data)).matchCount =
      (detectBestPattern calParseNone [21, 10]
        (("msg=audit(1700000777:1): go\n" : String).data)).matchCount ∧
    (detectBestPattern calParseNone [10, 21]
        (("msg=audit(1700000777:1): go\n" : String).data)).confidence =
      (detectBestPattern calParseNone [21, 10]
        (("msg=audit(1700000777:1): go\n" : String).data)).confidence ∧
    ((∀ i j, (∀ k, countMatches k
          (("msg=audit(1700000777:1): go\n" : String).data) ≤
          countMatches i (("msg=audit(1700000777:1): go\n" : String).data)) →
        (∀ k, countMatches k
          (("msg=audit(1700000777:1): go\n" : String).data) ≤
          countMatches j (("msg=audit(1700000777:1): go\n" : String).data)) →
        0 < countMatches i (("msg=audit(1700000777:1): go\n" : String).data) →
        0 < countMatches j (("msg=audit(1700000777:1): go\n" : String).data) →
        i = j) →
      detectBestPattern calParseNone [10, 21]
          (("msg=audit(1700000777:1): go\n" : String).data) =
        detectBestPattern calParseNone [21, 10]
          (("msg=audit(1700000777:1): go\n" : String).data))) :=
  ⟨by decide, by decide,
    detectBestPattern_matchCount_confidence_deterministic calParseNone
      (("msg=audit(1700000777:1): go\n" : String).data) [10, 21] [21, 10]
      (by decide) (by decide)⟩

/-- A two-line audit log.  Both lines start with the audit pattern, so the
anchored variant (index 10) and the unanchored variant (index 21) tie at
two matches each and no other pattern matches. -/
def auditTwoLines : List Char :=
  ("msg=audit(1700000000:1): hello\nmsg=audit(1700000001:4): there\n" :
    String).data

/-- C4 counterexample: on the same unmodified file, one admissible map
iteration order makes `DetectBestPattern` select the anchored audit pattern
and another makes it select the unanchored one, so two calls need not
return identical `PatternDetectionResult` values. -/
theorem detectBestPattern_two_orders_counterexample :
    DetectOrder auditTwoLines [10, 21] ∧
    DetectOrder auditTwoLines [21, 10] ∧
    (detectBestPattern calParseNone [10, 21] auditTwoLines).bestPattern =
      some 10 ∧
    (detectBestPattern calParseNone [21, 10] auditTwoLines).bestPattern =
      some 21 ∧
    detectBestPattern calParseNone [10, 21] auditTwoLines ≠
      detectBestPattern calParseNone [21, 10] auditTwoLines := by
  refine ⟨by decide, by decide, by decide, by decide, ?_⟩
  intro hc
  have := congrArg PatternDetectionResult.bestPattern hc
  revert this
  decide

/-- C5 counterexample: patterns 10 and 21 tie at the maximal match count
(the map's key set is exactly `{10, 21}`), yet with the admissible
iteration order `[21, 10]` the selected pattern is index 21, not the lowest
index 10. -/
theorem detectBestPattern_tie_not_lowest_counterexample :
    DetectOrder auditTwoLines [21, 10] ∧
    detectKeys auditTwoLines = [10, 21] ∧
    countMatches 10 auditTwoLines = 2 ∧
    countMatches 21 auditTwoLines = 2 ∧
    (detectBestPattern calParseNone [21, 10] auditTwoLines).bestPattern =
      some 21 := by
  refine ⟨by decide, by decide, by decide, by decide, by decide⟩

/-! ## C6: content-based log classification -/

/-- C6: classification accepts exactly when the detected `matchCount` is at
least 2 and the confidence `matchCount / lineCount` is at least `0.3`,
spelled without division as `3 * lineCount ≤ 10 * matchCount` (for line
counts up to 10, `float64` division and comparison against `0.3` order
these values exactly as the rationals do, so the rational model is
exact). -/
theorem isLogFileByContent_iff (calParse : CalParse) (order : List Nat)
    (content : List Char) (h : DetectOrder content order) :
    isLogFileByContent calParse order content = true ↔
      2 ≤ (detectBestPattern calParse order content).matchCount ∧
        3 * (sampleLines content).length ≤
          10 * (detectBestPattern calParse order content).matchCount := by
  have key : ∀ M L : Nat, 0 < L →
      (mkRat 3 10 ≤ mkRat (M : Int) L ↔ 3 * L ≤ 10 * M) := by
    intro M L hL
    rw [Rat.mkRat_eq_div, Rat.mkRat_eq_div,
      div_le_div_iff₀ (by norm_num) (by exact_mod_cast hL)]
    constructor
    · intro hq
      have h2 : ((3 * L : Nat) : ℚ) ≤ ((10 * M : Nat) : ℚ) := by
        push_cast at hq ⊢
        linarith
      exact_mod_cast h2
    · intro hn
      have h2 : ((3 * L : Nat) : ℚ) ≤ ((10 * M : Nat) : ℚ) := by
        exact_mod_cast hn
      push_cast at h2 ⊢
      linarith
  rw [isLogFileByContent]
  rw [Bool.and_eq_true, decide_eq_true_eq, decide_eq_true_eq]
  rcases detectBestPattern_argmax calParse order content h with
    ⟨hr, _⟩ | ⟨i, pre, post, hsplit, hr, hp, hpre, hub⟩
  · rw [hr]
    simp
  · rw [hr]
    have hL1 : 0 < (sampleLines content).length :=
      Nat.lt_of_lt_of_le hp (countMatches_le_sample i content)
    constructor
    · rintro ⟨hm, hc⟩
      exact ⟨hm, (key _ _ hL1).mp hc⟩
    · rintro ⟨hm, hc⟩
      exact ⟨hm, (key _ _ hL1).mpr hc⟩

/-- Ten lines, three of which carry a clear (audit) timestamp. -/
def logThreeOfTen : List Char :=
  ("msg=audit(1700000000:1): start\nstack trace line one\nstack trace line two\nmsg=audit(1700000001:2): middle\nstack trace line three\nstack trace line four\nstack trace line five\nmsg=audit(1700000002:3): final\nstack trace line six\nstack trace line seven\n" :
    String).data

/-- Ten lines with exactly one timestamp-like line. -/
def logOneOfTen : List Char :=
  ("msg=audit(1700000000:1): start\nstack trace line one\nstack trace line two\nstack trace line three\nstack trace line four\nstack trace line five\nstack trace line six\nstack trace line seven\nstack trace line eight\nstack trace line nine\n" :
    String).data

/-- Witness for C6: the acceptance rule evaluated on the spec's scenarios —
3 clearly-timestamped lines among 10 classify as a log, exactly 1
timestamp-like line among 10 does not. -/
theorem isLogFileByContent_iff_witness :
    DetectOrder logThreeOfTen [10, 21] ∧
    (isLogFileByContent calParseNone [10, 21] logThreeOfTen = true ↔
      2 ≤ (detectBestPattern calParseNone [10, 21] logThreeOfTen).matchCount ∧
        3 * (sampleLines logThreeOfTen).length ≤
          10 * (detectBestPattern calParseNone [10, 21]
            logThreeOfTen).matchCount) ∧
    isLogFileByContent calParseNone [10, 21] logThreeOfTen = true ∧
    isLogFileByContent calParseNone [10, 21] logOneOfTen = false :=
  ⟨by decide, isLogFileByContent_iff calParseNone [10, 21] logThreeOfTen
    (by decide), by decide, by decide⟩

/-! ## C9: no detected pattern means invalid-but-not-error bounds -/

theorem findGlobalTimeBounds_foldl_none :
    ∀ (bounds : List TimeBounds), (∀ b ∈ bounds, b.valid = false) →
      bounds.foldl globalBoundsStep none = none
  | [], _ => rfl
  | b :: rest, h => by
      rw [List.foldl_cons]
      have hb : b.valid = false := h b (List.mem_cons_self b rest)
      rw [show globalBoundsStep none b = none from by
        rw [globalBoundsStep, hb]
        rfl]
      exact findGlobalTimeBounds_foldl_none rest
        (fun b hb => h b (List.mem_cons_of_mem _ hb))

/-- C9: when `DetectBestPattern` finds no pattern, `ExtractBounds` returns
`valid = false` with no error; `FindGlobalTimeBounds` ignores invalid
bounds and returns `nil` when none of its input bounds is valid. -/
theorem extractBounds_no_pattern (calParse : CalParse) (order : List Nat)
    (content : List Char)
    (h : (detectBestPattern calParse order content).bestPattern = none) :
    extractBounds calParse order content = ({ valid := false }, false) ∧
    (∀ bounds : List TimeBounds, (∀ b ∈ bounds, b.valid = false) →
      findGlobalTimeBounds bounds = none) ∧
    (∀ (b : TimeBounds) (rest : List TimeBounds), b.valid = false →
      findGlobalTimeBounds (b :: rest) = findGlobalTimeBounds rest) := by
  refine ⟨?_, ?_, ?_⟩
  · rw [extractBounds, h]
  · intro bounds hall
    rcases bounds with _ | ⟨b, rest⟩
    · rfl
    · rw [findGlobalTimeBounds, if_neg (by simp),
        findGlobalTimeBounds_foldl_none _ hall]
  · intro b rest hb
    have hstep : globalBoundsStep none b = none := by
      rw [globalBoundsStep, hb]
      rfl
    rcases rest with _ | ⟨c, rest2⟩
    · simp [findGlobalTimeBounds, hstep]
    · simp [findGlobalTimeBounds, hstep]

/-- Lines with no timestamp-like content at all. -/
def junkOnlyContent : List Char :=
  ("stack trace line one\nstack trace line two\n" : String).data

/-- Witness for C9 on a file of only non-timestamped lines. -/
theorem extractBounds_no_pattern_witness :
    (detectBestPattern calParseNone [] junkOnlyContent).bestPattern = none ∧
    extractBounds calParseNone [] junkOnlyContent =
      ({ valid := false }, false) :=
  ⟨by decide, (extractBounds_no_pattern calParseNone [] junkOnlyContent
    (by decide)).1⟩

/-! ## C3: ordering of valid bounds -/

/-- Index characterisation of `List.findSome?`: a hit is the first element
on which `f` succeeds. -/
theorem findSome?_eq_some_index {α β : Type} (f : α → Option β) :
    ∀ (l : List α) (v : β), l.findSome? f = some v →
      ∃ (a : Nat) (ha : a < l.length), f (l.get ⟨a, ha⟩) = some v ∧
        ∀ (j : Nat) (hj : j < l.length), j < a → f (l.get ⟨j, hj⟩) = none
  | [], v, h => by simp [List.findSome?] at h
  | x :: t, v, h => by
      rw [List.findSome?] at h
      rcases hx : f x with _ | w
      · rw [hx] at h
        rcases findSome?_eq_some_index f t v h with ⟨a, ha, hfa, hmin⟩
        refine ⟨a + 1, Nat.succ_lt_succ ha, hfa, ?_⟩
        intro j hj hja
        rcases j with _ | j
        · exact hx
        · exact hmin j (Nat.lt_of_succ_lt_succ hj) (Nat.lt_of_succ_lt_succ hja)
      · rw [hx] at h
        refine ⟨0, Nat.succ_pos _, ?_, ?_⟩
        · show f x = some v
          rw [hx]
          exact h
        · intro j hj hja
          exact absurd hja (Nat.not_lt_zero j)

/-- C3 (amended): on a file that the 64 KB tail covers entirely, whose
line timestamps are unaffected by `TrimSpace` and non-decreasing with line
position (under the hybrid parse with the detected best pattern), a valid
`ExtractBounds` result satisfies `earliest ≤ latest`.  (The size bound is
needed because on a larger file the tail buffer starts mid-line and the
truncated first buffer line may parse to an unrelated timestamp; the
monotonicity bound is the spec's own §9 assumption, which the code does not
enforce — see the counterexample.) -/
theorem extractBounds_earliest_le_latest (calParse : CalParse)
    (order : List Nat) (content : List Char) (i : Nat)
    (hbest : (detectBestPattern calParse order content).bestPattern = some i)
    (hsize : content.length ≤ 64 * 1024)
    (htrim : ∀ l ∈ goLines content,
      parseTimestamp calParse (some i) (trimSpace l) =
        parseTimestamp calParse (some i) l)
    (hmono : ∀ (j k : Nat) (hj : j < (goLines content).length)
      (hk : k < (goLines content).length), j ≤ k → ∀ v w,
      parseTimestamp calParse (some i) ((goLines content).get ⟨j, hj⟩) =
        some v →
      parseTimestamp calParse (some i) ((goLines content).get ⟨k, hk⟩) =
        some w → v ≤ w)
    (hvalid : (extractBounds calParse order content).1.valid = true) :
    (extractBounds calParse order content).1.earliest ≤
      (extractBounds calParse order content).1.latest := by
  simp only [extractBounds, hbest] at hvalid ⊢
  rcases hE : findEarliestTimestamp calParse (some i) content with _ | ⟨e, el⟩
  · simp [hE] at hvalid
  rcases hL : findLatestTimestamp calParse (some i) content with _ | ⟨la, ll⟩
  · simp [hE, hL] at hvalid
  simp only [hE, hL]
  show e ≤ la
  -- Decompose the earliest scan: first parseable line among the first 100.
  rw [findEarliestTimestamp, findLineWithTimestamp,
    if_neg (by decide : ¬ maxLinesToCheckForTimestamp = 0)] at hE
  rcases findSome?_eq_some_index _ _ _ hE with ⟨a, ha, hfa, hamin⟩
  have ha100 : a < maxLinesToCheckForTimestamp ∧ a < (goLines content).length := by
    have := ha
    rw [List.length_take] at this
    omega
  have hget_a : (((goLines content).take maxLinesToCheckForTimestamp).get
      ⟨a, ha⟩) = (goLines content).get ⟨a, ha100.2⟩ := by
    simp [List.getElem_take]
  rw [hget_a] at hfa
  have hparse_a : parseTimestamp calParse (some i)
      ((goLines content).get ⟨a, ha100.2⟩) = some e := by
    rcases hp : parseTimestamp calParse (some i)
        ((goLines content).get ⟨a, ha100.2⟩) with _ | t
    · rw [hp] at hfa
      exact absurd hfa (by simp)
    · rw [hp] at hfa
      simp only [Option.map_some'] at hfa
      exact congrArg some ((Prod.mk.injEq _ _ _ _).mp
        (Option.some.inj hfa)).1
  -- Decompose the latest scan: the tail buffer is the whole file.
  rw [findLatestTimestamp] at hL
  have hmin : min (64 * 1024) content.length = content.length :=
    Nat.min_eq_right hsize
  rw [hmin, Nat.sub_self, List.drop_zero] at hL
  rcases List.exists_of_findSome?_eq_some hL with ⟨x, hxmem, hgx⟩
  have hparse_x : parseTimestamp calParse (some i) x = some la := by
    rcases hp : parseTimestamp calParse (some i) x with _ | t
    · rw [hp] at hgx
      exact absurd hgx (by simp)
    · rw [hp] at hgx
      simp only [Option.map_some'] at hgx
      exact congrArg some ((Prod.mk.injEq _ _ _ _).mp
        (Option.some.inj hgx)).1
  -- The found buffer line is the trim of some raw line.
  have hxmem2 : x ∈ ((goLines content).map trimSpace) := by
    have h1 : x ∈ (((goLines content).map trimSpace).filter
        (fun l => !l.isEmpty)) := by
      rw [splitLinesReverse] at hxmem
      exact (List.mem_reverse).mp hxmem
    exact List.mem_of_mem_filter h1
  rcases List.mem_map.mp hxmem2 with ⟨lraw, hlmem, hltrim⟩
  have hparse_raw : parseTimestamp calParse (some i) lraw = some la := by
    rw [← htrim lraw hlmem, hltrim]
    exact hparse_x
  rcases List.mem_iff_get.mp hlmem with ⟨⟨b, hb⟩, hbeq⟩
  by_cases hab : a ≤ b
  · exact hmono a b ha100.2 hb hab e la hparse_a (hbeq ▸ hparse_raw)
  · -- A parseable line strictly before the first parseable line: absurd.
    exfalso
    push_neg at hab
    have hb' : b < (List.take maxLinesToCheckForTimestamp
        (goLines content)).length := by
      rw [List.length_take]
      omega
    have := hamin b hb' hab
    have hget_b : ((List.take maxLinesToCheckForTimestamp
        (goLines content)).get ⟨b, hb'⟩) = (goLines content).get ⟨b, hb⟩ := by
      simp [List.getElem_take]
    rw [hget_b, hbeq, hparse_raw] at this
    simp at this

/-- A log whose unanchored-audit timestamps strictly decrease with
position: the second line hides its (smaller) audit timestamp mid-line, so
only the unanchored pattern matches it and detection deterministically
picks the unanchored audit pattern. -/
def auditDecreasing : List Char :=
  ("msg=audit(1700000099:1): first\nx msg=audit(1700000000:2)\n" :
    String).data

/-- C3 counterexample: `ExtractBounds` on a (non-monotone) file returns a
*valid* `TimeBounds` whose earliest timestamp is strictly greater than its
latest — the code never checks the ordering. -/
theorem extractBounds_inverted_counterexample :
    DetectOrder auditDecreasing [10, 21] ∧
    (extractBounds calParseNone [10, 21] auditDecreasing).1.valid = true ∧
    (extractBounds calParseNone [10, 21] auditDecreasing).1.earliest =
      1700000099 * 1000000000 ∧
    (extractBounds calParseNone [10, 21] auditDecreasing).1.latest =
      1700000000 * 1000000000 ∧
    (extractBounds calParseNone [10, 21] auditDecreasing).1.latest <
      (extractBounds calParseNone [10, 21] auditDecreasing).1.earliest := by
  refine ⟨by decide, by decide, by decide, by decide, by decide⟩

/-- A one-line audit log, trivially monotone. -/
def auditSingle : List Char :=
  ("msg=audit(1700000000:1): a\n" : String).data

/-- Witness for the amended C3 on a concrete monotone file. -/
theorem extractBounds_earliest_le_latest_witness :
    (detectBestPattern calParseNone [10, 21] auditSingle).bestPattern =
      some 10 ∧
    auditSingle.length ≤ 64 * 1024 ∧
    (extractBounds calParseNone [10, 21] auditSingle).1.valid = true ∧
    (extractBounds calParseNone [10, 21] auditSingle).1.earliest ≤
      (extractBounds calParseNone [10, 21] auditSingle).1.latest := by
  refine ⟨by decide, by decide, by decide, ?_⟩
  refine extractBounds_earliest_le_latest calParseNone [10, 21] auditSingle
    10 (by decide) (by decide) (by decide) ?_ (by decide)
  intro j k hj hk hjk v w h1 h2
  have hlen : (goLines auditSingle).length = 1 := by decide
  have hj0 : j = 0 := by omega
  have hk0 : k = 0 := by omega
  subst hj0
  subst hk0
  exact le_of_eq (Option.some.inj (h1.symm.trans h2))

/-! ## C7: unix-epoch decoding by digit count -/

/-- C7 (amended): a captured digit string whose `strconv.ParseInt` value
fits in an `int64` is decoded by digit count — 10 digits as seconds, 13 as
milliseconds, 16 as microseconds, 19 as nanoseconds; the decoded instant is
the captured value times `10^(19 - digits)` nanoseconds, so the 13-digit
value `1700000000000` and the 10-digit value `1700000000` decode to the
same instant. -/
theorem parseUnixTimestamp_digit_count (s : List Char) (hne : s ≠ [])
    (hd : s.all isDig = true)
    (hmax : digitsToNat s ≤ 9223372036854775807)
    (hlen : s.length = 10 ∨ s.length = 13 ∨ s.length = 16 ∨ s.length = 19) :
    parseUnixTimestamp s =
      some ((digitsToNat s : Int) * 10 ^ (19 - s.length)) := by
  have hp : parseInt64 s = some ((digitsToNat s : Int)) := by
    rw [parseInt64, if_pos ⟨hne, hd, hmax⟩]
  have hv : (0 : Int) ≤ (digitsToNat s : Int) := Int.natCast_nonneg _
  rcases hlen with h | h | h | h <;>
    simp only [parseUnixTimestamp, hp, h] <;> norm_num <;> omega

/-- Witness for C7 on the inputs named by the spec: `"1700000000"` (10
digits, seconds) and `"1700000000000"` (13 digits, milliseconds) decode to
the same instant. -/
theorem parseUnixTimestamp_digit_count_witness :
    (("1700000000" : String).data ≠ [] ∧
      (("1700000000" : String).data).all isDig = true ∧
      digitsToNat (("1700000000" : String).data) ≤ 9223372036854775807 ∧
      (("1700000000" : String).data).length = 10) ∧
    parseUnixTimestamp (("1700000000" : String).data) =
      some (1700000000 * 10 ^ 9) ∧
    parseUnixTimestamp (("1700000000000" : String).data) =
      some (1700000000 * 10 ^ 9) := by
  refine ⟨⟨by decide, by decide, by decide, by decide⟩, ?_, ?_⟩
  · rw [parseUnixTimestamp_digit_count (("1700000000" : String).data)
      (by decide) (by decide) (by decide) (Or.inl (by decide))]
    decide
  · rw [parseUnixTimestamp_digit_count (("1700000000000" : String).data)
      (by decide) (by decide) (by decide) (Or.inr (Or.inl (by decide)))]
    decide

/-- C7 counterexample: the 19-digit string `9999999999999999999` is
captured by the audit pattern (`\d{10,19}`) but exceeds `MaxInt64`, so
`strconv.ParseInt` fails and the timestamp is *not* decoded as nanoseconds
— the parse errors instead. -/
theorem parseUnixTimestamp_overflow_counterexample :
    (("9999999999999999999" : String).data).length = 19 ∧
    auditCaptureAt
        (("msg=audit(9999999999999999999:1): x" : String).data) =
      some (("9999999999999999999" : String).data) ∧
    parseWithPattern (fun _ _ => none) 10
        (("msg=audit(9999999999999999999:1): x" : String).data) = none ∧
    parseUnixTimestamp (("9999999999999999999" : String).data) = none := by
  decide

/-- Witness for C2 at the concrete range `[0, 10]` with 3 bins. -/
theorem createTimeBins_partitions_witness :
    ((0 : Int) ≤ 10 ∧ 1 ≤ 3) ∧
    ((createTimeBins ⟨0, 10⟩ 3).length = 3 ∧
    ((createTimeBins ⟨0, 10⟩ 3).getD 0 ⟨0, 0⟩).start = (0 : Int) ∧
    ((createTimeBins ⟨0, 10⟩ 3).getD (3 - 1) ⟨0, 0⟩).«end» = (10 : Int) ∧
    (∀ i, i + 1 < 3 →
      ((createTimeBins ⟨0, 10⟩ 3).getD i ⟨0, 0⟩).«end» =
        ((createTimeBins ⟨0, 10⟩ 3).getD (i + 1) ⟨0, 0⟩).start) ∧
    (∀ i, i < 3 →
      ((createTimeBins ⟨0, 10⟩ 3).getD i ⟨0, 0⟩).start ≤
        ((createTimeBins ⟨0, 10⟩ 3).getD i ⟨0, 0⟩).«end»)) :=
  ⟨⟨by decide, by decide⟩,
    createTimeBins_partitions ⟨0, 10⟩ 3 (by decide) (by decide)⟩

/-! ## C1: layout of a newline-terminated file

A file in which every line is terminated by a bare `'\n'` is `nlContent
ls` for its list of lines `ls`; `posOf ls k` is the byte offset of line
`k`. -/

/-- The byte content of the file whose lines are `ls`, each terminated by
a newline. -/
def nlContent (ls : List (List Char)) : List Char :=
  (ls.map (fun l => l ++ ['\n'])).join

/-- The byte offset at which line `k` starts (the total size for
`k = ls.length`). -/
def posOf : List (List Char) → Nat → Nat
  | _, 0 => 0
  | [], _ + 1 => 0
  | l :: ls, k + 1 => l.length + 1 + posOf ls k

theorem nlContent_nil : nlContent [] = [] := rfl

theorem nlContent_cons (l : List Char) (ls : List (List Char)) :
    nlContent (l :: ls) = l ++ '\n' :: nlContent ls := by
  simp [nlContent]

theorem nlContent_ne_nil (l : List Char) (ls : List (List Char)) :
    nlContent (l :: ls) ≠ [] := by
  rw [nlContent_cons]
  simp

theorem posOf_zero (ls : List (List Char)) : posOf ls 0 = 0 := by
  cases ls <;> rfl

theorem posOf_succ (ls : List (List Char)) (k : Nat) (h : k < ls.length) :
    posOf ls (k + 1) = posOf ls k + (ls.get ⟨k, h⟩).length + 1 := by
  induction ls generalizing k with
  | nil => exact absurd h (Nat.not_lt_zero k)
  | cons l ls ih =>
      cases k with
      | zero => simp [posOf]
      | succ k =>
          have hk : k < ls.length := Nat.lt_of_succ_lt_succ h
          simp only [posOf, ih k hk, List.get]
          omega

theorem posOf_mono (ls : List (List Char)) {k1 k2 : Nat} (h : k1 ≤ k2) :
    posOf ls k1 ≤ posOf ls k2 := by
  induction ls generalizing k1 k2 with
  | nil =>
      cases k1 <;> cases k2 <;> simp [posOf]
  | cons l ls ih =>
      cases k1 with
      | zero => cases k2 <;> simp [posOf]
      | succ k1 =>
          cases k2 with
          | zero => omega
          | succ k2 =>
              have := ih (Nat.le_of_succ_le_succ h)
              simp only [posOf]
              omega

theorem posOf_strict (ls : List (List Char)) {k1 k2 : Nat} (h : k1 < k2)
    (h2 : k2 ≤ ls.length) : posOf ls k1 < posOf ls k2 := by
  have h1 : k1 < ls.length := by omega
  have := posOf_succ ls k1 h1
  have := posOf_mono ls (show k1 + 1 ≤ k2 from h)
  omega

theorem nlContent_length (ls : List (List Char)) :
    (nlContent ls).length = posOf ls ls.length := by
  induction ls with
  | nil => rfl
  | cons l ls ih =>
      rw [nlContent_cons]
      simp only [List.length_append, List.length_cons, List.length]
      rw [ih]
      simp only [posOf]
      omega

theorem nlContent_drop (ls : List (List Char)) (k : Nat) :
    (nlContent ls).drop (posOf ls k) = nlContent (ls.drop k) := by
  induction ls generalizing k with
  | nil => cases k <;> rfl
  | cons l ls ih =>
      cases k with
      | zero => rfl
      | succ k =>
          rw [nlContent_cons]
          simp only [posOf, List.drop]
          have harr : l ++ '\n' :: nlContent ls =
              (l ++ ['\n']) ++ nlContent ls := by simp
          have hlen : l.length + 1 + posOf ls k =
              (l ++ ['\n']).length + posOf ls k := by simp
          rw [harr, hlen, List.drop_append, ih]

theorem nlContent_slice (ls : List (List Char)) (k : Nat)
    (h : k < ls.length) :
    ((nlContent ls).drop (posOf ls k)).take (ls.get ⟨k, h⟩).length =
      ls.get ⟨k, h⟩ := by
  rw [nlContent_drop, List.drop_eq_get_cons h, nlContent_cons]
  have := List.take_left (ls.get ⟨k, h⟩) ('\n' :: nlContent (ls.drop (k + 1)))
  simpa using this

theorem nlContent_get_inline (ls : List (List Char)) (k : Nat)
    (h : k < ls.length) (o : Nat) (ho : o < (ls.get ⟨k, h⟩).length) :
    (nlContent ls).get? (posOf ls k + o) = (ls.get ⟨k, h⟩).get? o := by
  rw [← List.get?_drop, nlContent_drop, List.drop_eq_get_cons h,
    nlContent_cons]
  rw [List.get?_append (by simpa using ho)]

theorem nlContent_get_newline (ls : List (List Char)) (k : Nat)
    (h : k < ls.length) :
    (nlContent ls).get? (posOf ls k + (ls.get ⟨k, h⟩).length) =
      some '\n' := by
  rw [← List.get?_drop, nlContent_drop, List.drop_eq_get_cons h,
    nlContent_cons]
  rw [List.get?_append_right (Nat.le_refl _)]
  simp

theorem pos_decomp (ls : List (List Char)) (p : Nat)
    (hp : p < posOf ls ls.length) :
    ∃ k, ∃ h : k < ls.length,
      posOf ls k ≤ p ∧ p ≤ posOf ls k + (ls.get ⟨k, h⟩).length := by
  induction ls generalizing p with
  | nil => simp [posOf] at hp
  | cons l ls ih =>
      by_cases hl : p ≤ l.length
      · exact ⟨0, by simp, by simp [posOf], by simpa [posOf] using hl⟩
      · push_neg at hl
        have hp' : p - (l.length + 1) < posOf ls ls.length := by
          simp only [List.length_cons, posOf] at hp
          omega
        rcases ih (p - (l.length + 1)) hp' with ⟨k, hk, h1, h2⟩
        refine ⟨k + 1, by simpa using Nat.succ_lt_succ hk, ?_, ?_⟩
        · simp only [posOf]
          omega
        · simp only [posOf, List.get]
          omega

/-- Inside line `k` of a newline-terminated file (the line being
newline-free) there is no `'\n'` byte. -/
theorem nlContent_no_newline_inline (ls : List (List Char))
    (hls : ∀ l ∈ ls, ¬ '\n' ∈ l) (k : Nat) (h : k < ls.length) (o : Nat)
    (ho : o < (ls.get ⟨k, h⟩).length) :
    ¬ (nlContent ls).get? (posOf ls k + o) = some '\n' := by
  rw [nlContent_get_inline ls k h o ho]
  intro hc
  exact hls (ls.get ⟨k, h⟩) (ls.get_mem k h) (List.get?_mem hc)

/-- In a newline-terminated file `findLineStart` maps every offset within
line `k` (its terminating newline included) to the line's start. -/
theorem findLineStart_nl (ls : List (List Char))
    (hls : ∀ l ∈ ls, ¬ '\n' ∈ l) (k : Nat) (h : k < ls.length) (o : Nat)
    (ho : o ≤ (ls.get ⟨k, h⟩).length) :
    findLineStart (nlContent ls) (posOf ls k + o) = posOf ls k := by
  refine findLineStart_unique (nlContent ls) (posOf ls k) (posOf ls k + o)
    (Nat.le_add_right _ _) ?_ ?_
  · cases k with
    | zero => exact Or.inl (posOf_zero ls)
    | succ k =>
        have hk : k < ls.length := by omega
        refine Or.inr ⟨?_, ?_⟩
        · rw [posOf_succ ls k hk]
          omega
        · rw [posOf_succ ls k hk]
          have := nlContent_get_newline ls k hk
          have harith : posOf ls k + (ls.get ⟨k, hk⟩).length + 1 - 1 =
              posOf ls k + (ls.get ⟨k, hk⟩).length := by omega
          rw [harith]
          exact this
  · intro j h1 h2
    have ho' : j - posOf ls k < (ls.get ⟨k, h⟩).length := by omega
    have := nlContent_no_newline_inline ls hls k h (j - posOf ls k) ho'
    have harith : posOf ls k + (j - posOf ls k) = j := by omega
    rwa [harith] at this

/-- In a newline-terminated file `findLineEnd` maps the start of line `k`
to the offset of its terminating newline. -/
theorem findLineEnd_nl (ls : List (List Char))
    (hls : ∀ l ∈ ls, ¬ '\n' ∈ l) (k : Nat) (h : k < ls.length) :
    findLineEnd (nlContent ls) (posOf ls k) =
      posOf ls k + (ls.get ⟨k, h⟩).length := by
  refine findLineEnd_unique (nlContent ls) (posOf ls k)
    (posOf ls k + (ls.get ⟨k, h⟩).length) (Nat.le_add_right _ _) ?_
    (Or.inl (nlContent_get_newline ls k h))
  intro j h1 h2
  have ho' : j - posOf ls k < (ls.get ⟨k, h⟩).length := by omega
  have := nlContent_no_newline_inline ls hls k h (j - posOf ls k) ho'
  have harith : posOf ls k + (j - posOf ls k) = j := by omega
  rwa [harith] at this

/-- The slice the searcher parses at the start of line `k` is exactly
line `k`. -/
theorem lineVal_nl (parse : List Char → Option Int) (ls : List (List Char))
    (hls : ∀ l ∈ ls, ¬ '\n' ∈ l) (k : Nat) (h : k < ls.length) :
    lineVal parse (nlContent ls) (posOf ls k) = parse (ls.get ⟨k, h⟩) := by
  rw [lineVal, findLineEnd_nl ls hls k h]
  have harith : posOf ls k + (ls.get ⟨k, h⟩).length - posOf ls k =
      (ls.get ⟨k, h⟩).length := by omega
  rw [harith, nlContent_slice ls k h]

/-- The valid probe positions of a newline-terminated file are exactly
the starts of its lines with a parseable timestamp. -/
theorem validStart_nl (parse : List Char → Option Int)
    (ls : List (List Char)) (hls : ∀ l ∈ ls, ¬ '\n' ∈ l)
    (hnil : parse [] = none) (p : Nat) :
    ValidStart parse (nlContent ls) p ↔
      ∃ k, ∃ h : k < ls.length,
        p = posOf ls k ∧ (parse (ls.get ⟨k, h⟩)).isSome = true := by
  constructor
  · intro hv
    have hpN : p < posOf ls ls.length := by
      have := hv.lt_length
      rwa [nlContent_length ls] at this
    rcases pos_decomp ls p hpN with ⟨k, hk, h1, h2⟩
    have hfls : findLineStart (nlContent ls) p = posOf ls k := by
      have := findLineStart_nl ls hls k hk (p - posOf ls k) (by omega)
      have harith : posOf ls k + (p - posOf ls k) = p := by omega
      rwa [harith] at this
    have hp : p = posOf ls k := by rw [← hv.1, hfls]
    subst hp
    refine ⟨k, hk, rfl, ?_⟩
    have := hv.2.2
    rwa [lineVal_nl parse ls hls k hk] at this
  · rintro ⟨k, hk, hp, hsome⟩
    subst hp
    have hne : (ls.get ⟨k, hk⟩).length ≠ 0 := by
      intro hc
      rw [List.length_eq_zero.mp hc, hnil] at hsome
      simp at hsome
    refine ⟨?_, ?_, ?_⟩
    · have := findLineStart_nl ls hls k hk 0 (Nat.zero_le _)
      simpa using this
    · rw [findLineEnd_nl ls hls k hk]
      omega
    · rwa [lineVal_nl parse ls hls k hk]

/-- Unfolding lemma for one scanner step. -/
theorem goLinesGo_cons (acc : List Char) (c : Char) (rest : List Char) :
    goLinesGo acc (c :: rest) =
      if c = '\n' then
        dropCR acc.reverse :: (if rest.isEmpty then [] else goLinesGo [] rest)
      else goLinesGo (c :: acc) rest := rfl

/-- One scanner step across a full newline-terminated line. -/
theorem goLinesGo_line (l : List Char) (hfree : ¬ '\n' ∈ l) :
    ∀ (acc rest : List Char),
      goLinesGo acc (l ++ '\n' :: rest) =
        dropCR (acc.reverse ++ l) ::
          (if rest.isEmpty then [] else goLinesGo [] rest) := by
  induction l with
  | nil =>
      intro acc rest
      rw [List.nil_append, goLinesGo_cons, if_pos rfl, List.append_nil]
  | cons c l ih =>
      intro acc rest
      have hc : ¬ c = '\n' := fun hc => hfree (hc ▸ List.mem_cons_self c l)
      have hfree' : ¬ '\n' ∈ l := fun hm => hfree (List.mem_cons_of_mem c hm)
      rw [List.cons_append, goLinesGo_cons, if_neg hc, ih hfree' (c :: acc) rest]
      simp

/-- `bufio.Scanner` recovers the lines of a newline-terminated file whose
lines contain no `'\n'` and do not end in `'\r'`. -/
theorem goLines_nlContent (ls : List (List Char))
    (hls : ∀ l ∈ ls, ¬ '\n' ∈ l ∧ dropCR l = l) :
    goLines (nlContent ls) = ls := by
  induction ls with
  | nil => rfl
  | cons l ls ih =>
      rw [nlContent_cons, goLines,
        if_neg (by rw [← nlContent_cons]; simpa using nlContent_ne_nil l ls),
        goLinesGo_line l (hls l (List.mem_cons_self l ls)).1 [] (nlContent ls)]
      simp only [List.reverse_nil, List.nil_append,
        (hls l (List.mem_cons_self l ls)).2]
      cases ls with
      | nil => simp [nlContent_nil]
      | cons l' ls' =>
          rw [if_neg (by simpa using nlContent_ne_nil l' ls')]
          have := ih (fun x hx => hls x (List.mem_cons_of_mem l hx))
          rw [goLines, if_neg (by simpa using nlContent_ne_nil l' ls')] at this
          rw [this]

/-- The index of the first line whose parsed timestamp satisfies `cond`
(the list's length when no line does). -/
def firstCondIdx (parse : List Char → Option Int) (cond : Int → Bool) :
    List (List Char) → Nat
  | [] => 0
  | l :: ls =>
      match parse l with
      | some v => if cond v then 0 else firstCondIdx parse cond ls + 1
      | none => firstCondIdx parse cond ls + 1

theorem firstCondIdx_le (parse : List Char → Option Int) (cond : Int → Bool)
    (ls : List (List Char)) : firstCondIdx parse cond ls ≤ ls.length := by
  induction ls with
  | nil => exact Nat.le_refl 0
  | cons l ls ih =>
      rcases hp : parse l with _ | v
      · have heq : firstCondIdx parse cond (l :: ls) =
            firstCondIdx parse cond ls + 1 := by
          simp [firstCondIdx, hp]
        rw [heq]
        simpa using Nat.succ_le_succ ih
      · by_cases hc : cond v = true
        · have heq : firstCondIdx parse cond (l :: ls) = 0 := by
            simp [firstCondIdx, hp, hc]
          rw [heq]
          simp
        · rw [Bool.not_eq_true] at hc
          have heq : firstCondIdx parse cond (l :: ls) =
              firstCondIdx parse cond ls + 1 := by
            simp [firstCondIdx, hp, hc]
          rw [heq]
          simpa using Nat.succ_le_succ ih

theorem firstCondIdx_spec (parse : List Char → Option Int)
    (cond : Int → Bool) (ls : List (List Char))
    (h : firstCondIdx parse cond ls < ls.length) :
    ∃ v, parse (ls.get ⟨firstCondIdx parse cond ls, h⟩) = some v ∧
      cond v = true := by
  induction ls with
  | nil => exact absurd h (Nat.not_lt_zero _)
  | cons l ls ih =>
      rcases hp : parse l with _ | v
      · have heq : firstCondIdx parse cond (l :: ls) =
            firstCondIdx parse cond ls + 1 := by
          simp [firstCondIdx, hp]
        rcases ih (by rw [heq] at h; simpa using Nat.lt_of_succ_lt_succ h)
          with ⟨w, hw1, hw2⟩
        refine ⟨w, ?_, hw2⟩
        have : (l :: ls).get ⟨firstCondIdx parse cond (l :: ls), h⟩ =
            ls.get ⟨firstCondIdx parse cond ls, by
              rw [heq] at h; simpa using Nat.lt_of_succ_lt_succ h⟩ := by
          simp [heq]
        rw [this, hw1]
      · by_cases hc : cond v = true
        · have heq : firstCondIdx parse cond (l :: ls) = 0 := by
            simp [firstCondIdx, hp, hc]
          refine ⟨v, ?_, hc⟩
          have : (l :: ls).get ⟨firstCondIdx parse cond (l :: ls), h⟩ = l := by
            simp [heq]
          rw [this, hp]
        · rw [Bool.not_eq_true] at hc
          have heq : firstCondIdx parse cond (l :: ls) =
              firstCondIdx parse cond ls + 1 := by
            simp [firstCondIdx, hp, hc]
          rcases ih (by rw [heq] at h; simpa using Nat.lt_of_succ_lt_succ h)
            with ⟨w, hw1, hw2⟩
          refine ⟨w, ?_, hw2⟩
          have : (l :: ls).get ⟨firstCondIdx parse cond (l :: ls), h⟩ =
              ls.get ⟨firstCondIdx parse cond ls, by
                rw [heq] at h; simpa using Nat.lt_of_succ_lt_succ h⟩ := by
            simp [heq]
          rw [this, hw1]

theorem firstCondIdx_min (parse : List Char → Option Int)
    (cond : Int → Bool) (ls : List (List Char)) :
    ∀ (k : Nat) (hk : k < ls.length), k < firstCondIdx parse cond ls →
      ∀ v, parse (ls.get ⟨k, hk⟩) = some v → ¬ cond v = true := by
  induction ls with
  | nil => intro k hk; exact absurd hk (Nat.not_lt_zero k)
  | cons l ls ih =>
      intro k hk hlt v hv
      rcases hp : parse l with _ | w
      · cases k with
        | zero =>
            simp only [List.get] at hv
            rw [hp] at hv
            exact absurd hv (by simp)
        | succ k =>
            have heq : firstCondIdx parse cond (l :: ls) =
                firstCondIdx parse cond ls + 1 := by
              simp [firstCondIdx, hp]
            rw [heq] at hlt
            exact ih k (Nat.lt_of_succ_lt_succ hk)
              (Nat.lt_of_succ_lt_succ hlt) v hv
      · by_cases hc : cond w = true
        · have heq : firstCondIdx parse cond (l :: ls) = 0 := by
            simp [firstCondIdx, hp, hc]
          rw [heq] at hlt
          exact absurd hlt (Nat.not_lt_zero k)
        · rw [Bool.not_eq_true] at hc
          have heq : firstCondIdx parse cond (l :: ls) =
              firstCondIdx parse cond ls + 1 := by
            simp [firstCondIdx, hp, hc]
          cases k with
          | zero =>
              simp only [List.get] at hv
              rw [hp] at hv
              have hwv := Option.some.inj hv
              subst hwv
              simp [hc]
          | succ k =>
              rw [heq] at hlt
              exact ih k (Nat.lt_of_succ_lt_succ hk)
                (Nat.lt_of_succ_lt_succ hlt) v hv

theorem listGetD_eq_get {α : Type} (l : List α) (d : α) (k : Nat)
    (h : k < l.length) : l.getD k d = l.get ⟨k, h⟩ := by
  rw [List.getD_eq_get?, List.get?_eq_get h]
  rfl

theorem drop_eq_getD_cons {α : Type} (l : List α) (d : α) (k : Nat)
    (h : k < l.length) : l.drop k = l.getD k d :: l.drop (k + 1) := by
  rw [listGetD_eq_get l d k h]
  exact List.drop_eq_get_cons h

theorem firstCondIdx_specD (parse : List Char → Option Int)
    (cond : Int → Bool) (ls : List (List Char))
    (h : firstCondIdx parse cond ls < ls.length) :
    ∃ v, parse (ls.getD (firstCondIdx parse cond ls) []) = some v ∧
      cond v = true := by
  rw [listGetD_eq_get ls [] _ h]
  exact firstCondIdx_spec parse cond ls h

theorem firstCondIdx_minD (parse : List Char → Option Int)
    (cond : Int → Bool) (ls : List (List Char)) :
    ∀ k : Nat, k < ls.length → k < firstCondIdx parse cond ls →
      ∀ v, parse (ls.getD k []) = some v → ¬ cond v = true := by
  intro k hk hlt v hv
  rw [listGetD_eq_get ls [] k hk] at hv
  exact firstCondIdx_min parse cond ls k hk hlt v hv

theorem posOf_succD (ls : List (List Char)) (k : Nat) (h : k < ls.length) :
    posOf ls (k + 1) = posOf ls k + ((ls.getD k []).length + 1) := by
  rw [listGetD_eq_get ls [] k h, posOf_succ ls k h]
  omega

/-- Unfolding lemma for one step of the linear scanning loop. -/
theorem linearLoop_cons (parse : List Char → Option Int) (s e : Int)
    (line : List Char) (rest : List (List Char)) (flag : Bool) (acc : Nat) :
    linearLoop parse s e (line :: rest) flag acc =
      match parse line with
      | some v =>
          if ¬ v < s ∧ ¬ v > e then
            linearLoop parse s e rest true (acc + (line.length + 1))
          else if v > e then acc
          else if v < s then linearLoop parse s e rest false acc
          else linearLoop parse s e rest flag acc
      | none =>
          if flag then linearLoop parse s e rest flag (acc + (line.length + 1))
          else linearLoop parse s e rest flag acc := rfl

theorem linearLoop_cons_some (parse : List Char → Option Int) (s e : Int)
    (line : List Char) (rest : List (List Char)) (flag : Bool) (acc : Nat)
    (v : Int) (hp : parse line = some v) :
    linearLoop parse s e (line :: rest) flag acc =
      if ¬ v < s ∧ ¬ v > e then
        linearLoop parse s e rest true (acc + (line.length + 1))
      else if v > e then acc
      else if v < s then linearLoop parse s e rest false acc
      else linearLoop parse s e rest flag acc := by
  rw [linearLoop_cons, hp]

theorem linearLoop_cons_none (parse : List Char → Option Int) (s e : Int)
    (line : List Char) (rest : List (List Char)) (flag : Bool) (acc : Nat)
    (hp : parse line = none) :
    linearLoop parse s e (line :: rest) flag acc =
      if flag then linearLoop parse s e rest flag (acc + (line.length + 1))
      else linearLoop parse s e rest flag acc := by
  rw [linearLoop_cons, hp]

/-- The byte count accumulated by the linear scanning loop from line `j`
onward: it counts every byte from the first line at or after both `j` and
the first in-range line `A`, up to the first line past the range `B`. -/
theorem linearLoop_count (parse : List Char → Option Int)
    (ls : List (List Char)) (s e : Int)
    (hmono : ∀ i j : Nat, i < ls.length → j < ls.length → i ≤ j →
      ∀ vi vj : Int, parse (ls.getD i []) = some vi →
        parse (ls.getD j []) = some vj → vi ≤ vj)
    (A B : Nat) (hA : A = firstCondIdx parse (bstCond true s) ls)
    (hB : B = firstCondIdx parse (bstCond false e) ls) :
    ∀ (n j acc : Nat), ls.length - j = n → j ≤ ls.length → j ≤ B →
      linearLoop parse s e (ls.drop j) (decide (A < j)) acc =
        acc + (posOf ls B - posOf ls (max A j)) := by
  have hAle : A ≤ ls.length := hA ▸ firstCondIdx_le parse _ ls
  have hBle : B ≤ ls.length := hB ▸ firstCondIdx_le parse _ ls
  have specA : A < ls.length →
      ∃ v, parse (ls.getD A []) = some v ∧ ¬ v < s := by
    intro h
    rcases firstCondIdx_specD parse (bstCond true s) ls (hA ▸ h) with
      ⟨v, hv, hc⟩
    refine ⟨v, hA ▸ hv, ?_⟩
    simpa [bstCond] using hc
  have specB : B < ls.length →
      ∃ v, parse (ls.getD B []) = some v ∧ v > e := by
    intro h
    rcases firstCondIdx_specD parse (bstCond false e) ls (hB ▸ h) with
      ⟨v, hv, hc⟩
    refine ⟨v, hB ▸ hv, ?_⟩
    simpa [bstCond] using hc
  have minA : ∀ k, k < ls.length → k < A → ∀ v,
      parse (ls.getD k []) = some v → v < s := by
    intro k hk hlt v hv
    have := firstCondIdx_minD parse (bstCond true s) ls k hk (hA ▸ hlt) v hv
    simpa [bstCond] using this
  have minB : ∀ k, k < ls.length → k < B → ∀ v,
      parse (ls.getD k []) = some v → ¬ v > e := by
    intro k hk hlt v hv
    have := firstCondIdx_minD parse (bstCond false e) ls k hk (hB ▸ hlt) v hv
    simpa [bstCond] using this
  intro n
  induction n with
  | zero =>
      intro j acc hn hjle hjB
      have hj : j = ls.length := by omega
      have hBeq : B = ls.length := by omega
      subst hj
      rw [List.drop_length]
      have hmax : max A ls.length = ls.length := Nat.max_eq_right hAle
      rw [hBeq, hmax]
      simp [linearLoop]
  | succ n ih =>
      intro j acc hn hjle hjB
      have hjlt : j < ls.length := by omega
      rw [drop_eq_getD_cons ls [] j hjlt]
      rcases hp : parse (ls.getD j []) with _ | v
      · -- a line with no timestamp
        rw [linearLoop_cons_none parse s e _ _ _ _ hp]
        have hjB' : j < B := by
          rcases Nat.eq_or_lt_of_le hjB with hjb | hjb
          · exfalso
            rcases specB (by omega) with ⟨w, hw, _⟩
            rw [← hjb, hp] at hw
            exact Option.noConfusion hw
          · exact hjb
        by_cases hAj : A < j
        · rw [if_pos (decide_eq_true hAj)]
          have hflag : (decide (A < j)) = (decide (A < j + 1)) := by
            have h1 : A < j + 1 := by omega
            simp [hAj, h1]
          rw [hflag, ih (j + 1) (acc + ((ls.getD j []).length + 1)) (by omega)
            (by omega) (by omega)]
          have hps := posOf_succD ls j hjlt
          have hpm : posOf ls (j + 1) ≤ posOf ls B :=
            posOf_mono ls (by omega)
          rw [Nat.max_eq_right (by omega : A ≤ j + 1),
            Nat.max_eq_right (by omega : A ≤ j)]
          omega
        · rw [if_neg (by simpa using hAj)]
          have hAj' : j < A := by
            rcases Nat.lt_or_ge j A with h | h
            · exact h
            · exfalso
              rcases Nat.eq_or_lt_of_le h with hja | hja
              · rcases specA (by omega) with ⟨w, hw, _⟩
                rw [hja, hp] at hw
                exact Option.noConfusion hw
              · omega
          have hflag : (decide (A < j)) = (decide (A < j + 1)) := by
            have h1 : ¬ A < j := by omega
            have h2 : ¬ A < j + 1 := by omega
            simp [h1, h2]
          rw [hflag, ih (j + 1) acc (by omega) (by omega) (by omega)]
          rw [Nat.max_eq_left (by omega : j + 1 ≤ A),
            Nat.max_eq_left (by omega : j ≤ A)]
      · -- a line with timestamp `v`
        rw [linearLoop_cons_some parse s e _ _ _ _ v hp]
        by_cases hvs : v < s
        · -- before the range: `inRange = false`, nothing counted
          have hBj : ¬ v > e → j < B := by
            intro hve
            rcases Nat.eq_or_lt_of_le hjB with hjb | hjb
            · exfalso
              rcases specB (by omega) with ⟨w, hw, hwc⟩
              rw [← hjb, hp] at hw
              rw [← Option.some.inj hw] at hwc
              exact hve hwc
            · exact hjb
          have hAj' : j < A := by
            rcases Nat.lt_or_ge j A with h | h
            · exact h
            · exfalso
              rcases Nat.eq_or_lt_of_le h with hja | hja
              · rcases specA (by omega) with ⟨w, hw, hwc⟩
                rw [hja, hp] at hw
                exact hwc (Option.some.inj hw ▸ hvs)
              · rcases specA (by omega) with ⟨w, hw, hwc⟩
                exact hwc (Int.lt_of_le_of_lt
                  (hmono A j (by omega) hjlt (by omega) w v hw hp) hvs)
          rw [if_neg (by intro hc; exact hc.1 hvs)]
          by_cases hve : v > e
          · -- inverted range: the scan stops at once
            rw [if_pos hve]
            have hBj' : B ≤ j := by
              by_contra hc
              push_neg at hc
              exact minB j hjlt hc v hp hve
            have h1 : posOf ls B ≤ posOf ls (max A j) :=
              posOf_mono ls (by omega)
            omega
          · rw [if_neg hve, if_pos hvs]
            have hflag : (false : Bool) = (decide (A < j + 1)) := by
              have h2 : ¬ A < j + 1 := by omega
              simp [h2]
            rw [hflag, ih (j + 1) acc (by omega) (by omega)
              (by have := hBj hve; omega)]
            rw [Nat.max_eq_left (by omega : j + 1 ≤ A),
              Nat.max_eq_left (by omega : j ≤ A)]
        · by_cases hve : v > e
          · -- past the range: the scan stops
            rw [if_neg (by intro hc; exact hc.2 hve), if_pos hve]
            have hBj' : B ≤ j := by
              by_contra hc
              push_neg at hc
              exact minB j hjlt hc v hp hve
            have h1 : posOf ls B ≤ posOf ls (max A j) :=
              posOf_mono ls (by omega)
            omega
          · -- in range: the line is counted
            rw [if_pos ⟨hvs, hve⟩]
            have hAj : A ≤ j := by
              by_contra hc
              push_neg at hc
              exact hvs (minA j hjlt hc v hp)
            have hjB' : j < B := by
              rcases Nat.eq_or_lt_of_le hjB with hjb | hjb
              · exfalso
                rcases specB (by omega) with ⟨w, hw, hwc⟩
                rw [← hjb, hp] at hw
                rw [← Option.some.inj hw] at hwc
                exact hve hwc
              · exact hjb
            have hflag : (true : Bool) = (decide (A < j + 1)) := by
              have h1 : A < j + 1 := by omega
              simp [h1]
            rw [hflag, ih (j + 1) (acc + ((ls.getD j []).length + 1))
              (by omega) (by omega) (by omega)]
            have hps := posOf_succD ls j hjlt
            have hpm : posOf ls (j + 1) ≤ posOf ls B :=
              posOf_mono ls (by omega)
            rw [Nat.max_eq_right (by omega : A ≤ j + 1),
              Nat.max_eq_right (by omega : A ≤ j)]
            omega

/-- Pairwise monotonicity of the parsed values (in file order) gives
index-wise monotonicity. -/
theorem pairwise_filterMap_mono (parse : List Char → Option Int) :
    ∀ ls : List (List Char), (ls.filterMap parse).Pairwise (· ≤ ·) →
      ∀ i j : Nat, i < ls.length → j < ls.length → i ≤ j →
        ∀ vi vj : Int, parse (ls.getD i []) = some vi →
          parse (ls.getD j []) = some vj → vi ≤ vj := by
  intro ls
  induction ls with
  | nil =>
      intro _ i j hi
      exact absurd hi (Nat.not_lt_zero i)
  | cons l ls ih =>
      intro hpw i j hi hj hij vi vj hvi hvj
      cases i with
      | zero =>
          have hl : (l :: ls).getD 0 [] = l := rfl
          rw [hl] at hvi
          cases j with
          | zero =>
              rw [hl] at hvj
              rw [hvi] at hvj
              exact le_of_eq (Option.some.inj hvj)
          | succ j =>
              have hjj : j < ls.length := Nat.lt_of_succ_lt_succ hj
              have hgd : (l :: ls).getD (j + 1) [] = ls.getD j [] := rfl
              rw [hgd] at hvj
              have hfm : (l :: ls).filterMap parse =
                  vi :: ls.filterMap parse := by
                rw [List.filterMap_cons, hvi]
              rw [hfm] at hpw
              refine (List.pairwise_cons.mp hpw).1 vj ?_
              rw [List.mem_filterMap]
              refine ⟨ls.getD j [], ?_, hvj⟩
              rw [listGetD_eq_get ls [] j hjj]
              exact ls.get_mem j hjj
      | succ i =>
          cases j with
          | zero => omega
          | succ j =>
              have hpw' : (ls.filterMap parse).Pairwise (· ≤ ·) := by
                rw [List.filterMap_cons] at hpw
                rcases hq : parse l with _ | w
                · rwa [hq] at hpw
                · rw [hq] at hpw
                  exact (List.pairwise_cons.mp hpw).2
              exact ih hpw' i j (Nat.lt_of_succ_lt_succ hi)
                (Nat.lt_of_succ_lt_succ hj) (Nat.le_of_succ_le_succ hij)
                vi vj hvi hvj

/-- On a newline-terminated file with monotone line timestamps, the binary
search returns the byte offset of the first line whose timestamp satisfies
the search condition (the file size when none does). -/
theorem binarySearchTime_eq_posOf (parse : List Char → Option Int)
    (ls : List (List Char)) (t : Int) (ss : Bool)
    (hls : ∀ l ∈ ls, ¬ '\n' ∈ l) (hnil : parse [] = none)
    (hmono : ∀ i j : Nat, i < ls.length → j < ls.length → i ≤ j →
      ∀ vi vj : Int, parse (ls.getD i []) = some vi →
        parse (ls.getD j []) = some vj → vi ≤ vj) :
    binarySearchTime parse (nlContent ls) t ss =
      posOf ls (firstCondIdx parse (bstCond ss t) ls) := by
  have hle := firstCondIdx_le parse (bstCond ss t) ls
  refine binarySearchTime_char parse (nlContent ls) t ss ?_
    (posOf ls (firstCondIdx parse (bstCond ss t) ls)) ?_ ?_
  · intro s1 s2 v1 v2 hv1 hv2 hs12 hl1 hl2
    rcases (validStart_nl parse ls hls hnil s1).mp hv1 with ⟨k1, hk1, hp1, _⟩
    rcases (validStart_nl parse ls hls hnil s2).mp hv2 with ⟨k2, hk2, hp2, _⟩
    subst hp1
    subst hp2
    rw [lineVal_nl parse ls hls k1 hk1, ← listGetD_eq_get ls [] k1 hk1]
      at hl1
    rw [lineVal_nl parse ls hls k2 hk2, ← listGetD_eq_get ls [] k2 hk2]
      at hl2
    have hk12 : k1 ≤ k2 := by
      by_contra hc
      push_neg at hc
      have := posOf_strict ls hc (Nat.le_of_lt hk1)
      omega
    exact hmono k1 k2 hk1 hk2 hk12 v1 v2 hl1 hl2
  · rcases Nat.lt_or_ge (firstCondIdx parse (bstCond ss t) ls) ls.length
      with hlt | hge
    · refine Or.inr ⟨?_, ?_⟩
      · rw [validStart_nl parse ls hls hnil]
        refine ⟨firstCondIdx parse (bstCond ss t) ls, hlt, rfl, ?_⟩
        rcases firstCondIdx_spec parse (bstCond ss t) ls hlt with ⟨v, hv, _⟩
        rw [hv]
        rfl
      · rcases firstCondIdx_spec parse (bstCond ss t) ls hlt with
          ⟨v, hv, hc⟩
        refine ⟨v, ?_, hc⟩
        rw [lineVal_nl parse ls hls _ hlt, hv]
    · have heq : firstCondIdx parse (bstCond ss t) ls = ls.length := by
        omega
      exact Or.inl (by rw [heq, nlContent_length])
  · rintro p ⟨hvp, v, hlv, hcv⟩
    rcases (validStart_nl parse ls hls hnil p).mp hvp with ⟨k, hk, hp, _⟩
    subst hp
    rw [lineVal_nl parse ls hls k hk, ← listGetD_eq_get ls [] k hk] at hlv
    have hAk : firstCondIdx parse (bstCond ss t) ls ≤ k := by
      by_contra hc
      push_neg at hc
      exact firstCondIdx_minD parse (bstCond ss t) ls k hk hc v hlv hcv
    exact posOf_mono ls hAk

/-- C1 (amended): on a file in which every line (the last included) is
terminated by a bare `'\n'`, no line ends in `'\r'`, the empty line has no
timestamp, and the parsed line timestamps are non-decreasing in file
order, the byte count of `BinarySearchTimeRange(start, end)` equals the
byte count of `countBytesInTimeRangeLinear` for every range. -/
theorem binarySearchTimeRange_eq_linear (parse : List Char → Option Int)
    (ls : List (List Char)) (s e : Int)
    (hls : ∀ l ∈ ls, ¬ '\n' ∈ l ∧ dropCR l = l)
    (hnil : parse [] = none)
    (hmono : (ls.filterMap parse).Pairwise (· ≤ ·)) :
    binarySearchTimeRange parse (nlContent ls) s e =
      countBytesInTimeRangeLinear parse (nlContent ls) s e := by
  have hmono' := pairwise_filterMap_mono parse ls hmono
  have hls1 : ∀ l ∈ ls, ¬ '\n' ∈ l := fun l hl => (hls l hl).1
  by_cases h0 : ls = []
  · subst h0
    rfl
  · have hN : ¬ (nlContent ls).length = 0 := by
      cases ls with
      | nil => exact absurd rfl h0
      | cons l ls' =>
          intro hc
          exact nlContent_ne_nil l ls' (List.length_eq_zero.mp hc)
    have hcount := linearLoop_count parse ls s e hmono'
      (firstCondIdx parse (bstCond true s) ls)
      (firstCondIdx parse (bstCond false e) ls) rfl rfl ls.length 0 0
      (by omega) (Nat.zero_le _) (Nat.zero_le _)
    rw [List.drop_zero] at hcount
    have hd : decide (firstCondIdx parse (bstCond true s) ls < 0) = false :=
      by simp
    rw [hd, Nat.max_zero, Nat.zero_add] at hcount
    rw [countBytesInTimeRangeLinear, goLines_nlContent ls hls, hcount]
    rw [binarySearchTimeRange, if_neg hN,
      binarySearchTime_eq_posOf parse ls s true hls1 hnil hmono',
      binarySearchTime_eq_posOf parse ls e false hls1 hnil hmono']
    by_cases hgt : posOf ls (firstCondIdx parse (bstCond false e) ls) >
        posOf ls (firstCondIdx parse (bstCond true s) ls)
    · rw [if_pos hgt]
    · rw [if_neg hgt]
      omega

/-- On a newline-free non-empty file that parses as a single line, the
binary search returns 0 when the line's timestamp satisfies the search
condition and the file size otherwise. -/
theorem binarySearchTime_single (parse : List Char → Option Int)
    (data : List Char)
    (hnl : ∀ j, j < data.length → ¬ data.get? j = some '\n')
    (hne : data.length ≠ 0) (t : Int) (ss : Bool) (v : Int)
    (hv : parse data = some v) :
    binarySearchTime parse data t ss =
      if bstCond ss t v then 0 else data.length := by
  have hfls : ∀ pos : Nat, findLineStart data pos = 0 := by
    intro pos
    refine findLineStart_unique data 0 pos (Nat.zero_le pos) (Or.inl rfl) ?_
    intro j _ _
    by_cases hj : j < data.length
    · exact hnl j hj
    · rw [List.get?_eq_none.mpr (by omega)]
      simp
  have hfle : findLineEnd data 0 = data.length := by
    refine findLineEnd_unique data 0 data.length (Nat.zero_le _) ?_
      (Or.inr rfl)
    intro j _ h2
    exact hnl j h2
  have hlv : lineVal parse data 0 = some v := by
    rw [lineVal, hfle, List.drop_zero, Nat.sub_zero, List.take_length]
    exact hv
  have hzero : ∀ s, ValidStart parse data s → s = 0 := by
    intro s hs
    have h1 := hs.1
    rw [hfls s] at h1
    omega
  have hmono : ∀ s1 s2 v1 v2, ValidStart parse data s1 →
      ValidStart parse data s2 → s1 ≤ s2 → lineVal parse data s1 = some v1 →
      lineVal parse data s2 = some v2 → v1 ≤ v2 := by
    intro s1 s2 v1 v2 h1 h2 _ hl1 hl2
    rw [hzero s1 h1] at hl1
    rw [hzero s2 h2] at hl2
    rw [Option.some.inj (hl1.symm.trans hl2)]
  have hv0 : ValidStart parse data 0 := by
    refine ⟨rfl, ?_, ?_⟩
    · rw [hfle]
      omega
    · rw [hlv]
      rfl
  by_cases hc : bstCond ss t v = true
  · rw [if_pos hc]
    exact binarySearchTime_char parse data t ss hmono 0
      (Or.inr ⟨hv0, v, hlv, hc⟩) (fun s _ => Nat.zero_le s)
  · rw [if_neg hc]
    refine binarySearchTime_char parse data t ss hmono data.length
      (Or.inl rfl) ?_
    rintro s ⟨hvs, w, hlw, hcw⟩
    exfalso
    rw [hzero s hvs] at hlw
    rw [Option.some.inj (hlw.symm.trans hlv)] at hcw
    exact hc hcw

/-- C1 counterexample to the unamended claim: a one-line audit file
*without* a trailing newline. Its single timestamp is trivially
non-decreasing, yet for the range `[t, t]` hitting that timestamp the
binary search counts the 26 real bytes while the linear scan counts
`len(line) + 1 = 27` bytes, inventing a newline the file does not have. -/
theorem binarySearchTimeRange_linear_counterexample :
    goLines (("msg=audit(1700000000:0): x" : String).data) =
      [(("msg=audit(1700000000:0): x" : String).data)] ∧
    parseTimestamp calParseNone (some 10)
        (("msg=audit(1700000000:0): x" : String).data) =
      some (1700000000 * 10 ^ 9) ∧
    binarySearchTimeRange (parseTimestamp calParseNone (some 10))
        (("msg=audit(1700000000:0): x" : String).data)
        (1700000000 * 10 ^ 9) (1700000000 * 10 ^ 9) = 26 ∧
    countBytesInTimeRangeLinear (parseTimestamp calParseNone (some 10))
        (("msg=audit(1700000000:0): x" : String).data)
        (1700000000 * 10 ^ 9) (1700000000 * 10 ^ 9) = 27 := by
  refine ⟨by decide, by decide, ?_, by decide⟩
  have h1 := binarySearchTime_single (parseTimestamp calParseNone (some 10))
    (("msg=audit(1700000000:0): x" : String).data) (by decide) (by decide)
    (1700000000 * 10 ^ 9) true (1700000000 * 10 ^ 9) (by decide)
  have h2 := binarySearchTime_single (parseTimestamp calParseNone (some 10))
    (("msg=audit(1700000000:0): x" : String).data) (by decide) (by decide)
    (1700000000 * 10 ^ 9) false (1700000000 * 10 ^ 9) (by decide)
  rw [if_pos (by decide)] at h1
  rw [if_neg (by decide)] at h2
  simp only [binarySearchTimeRange]
  rw [h1, h2]
  decide

/-- Witness for the amended C1 on a concrete newline-terminated one-line
audit file. -/
theorem binarySearchTimeRange_eq_linear_witness :
    (∀ l ∈ [(("msg=audit(1700000000:1): a" : String).data)],
      ¬ '\n' ∈ l ∧ dropCR l = l) ∧
    parseTimestamp calParseNone (some 10) [] = none ∧
    (([(("msg=audit(1700000000:1): a" : String).data)].filterMap
      (parseTimestamp calParseNone (some 10))).Pairwise (· ≤ ·)) ∧
    binarySearchTimeRange (parseTimestamp calParseNone (some 10))
        (nlContent [(("msg=audit(1700000000:1): a" : String).data)])
        (1700000000 * 10 ^ 9) (1700000000 * 10 ^ 9) =
      countBytesInTimeRangeLinear (parseTimestamp calParseNone (some 10))
        (nlContent [(("msg=audit(1700000000:1): a" : String).data)])
        (1700000000 * 10 ^ 9) (1700000000 * 10 ^ 9) :=
  ⟨by decide, by decide, by decide,
    binarySearchTimeRange_eq_linear (parseTimestamp calParseNone (some 10))
      [(("msg=audit(1700000000:1): a" : String).data)]
      (1700000000 * 10 ^ 9) (1700000000 * 10 ^ 9)
      (by decide) (by decide) (by decide)⟩

end LogNinja
